import Mathlib

/-!
Verification of the row-identity-preserving edit/filter/export pipeline of the
Excel-data-filter repository.

The development shallowly embeds the relevant parts of the source:
  * `src/ui/preview_table.py` — the edit overlay store, display cache,
    pagination and export reconciliation (`PreviewTable`),
  * `src/core/filter_engine.py` — the filter rule compiler (`FilterEngine`),
  * `src/core/exporter.py` — the xlsx/csv export front end (`ExcelExporter`).

Python dictionaries are embedded as association lists with insert-replace
semantics; cell values as a sum type `Value`; Python floats as rationals.
Ambient collaborator functions of the Python runtime that cannot be embedded
(unicodedata NFC normalization, the process-salted str hash) are passed
explicitly in an `Ambient` record; theorems that depend on their properties
take those properties as hypotheses.
-/

namespace ExcelDataFilter

/-! ## Association-list embedding of Python dict -/

/-- First-match lookup: the value `d.get(k)` of a Python dict
(keys are unique in any dict built by `insertD`). -/
def lookupD {κ β : Type} [DecidableEq κ] (d : List (κ × β)) (k : κ) : Option β :=
  match d with
  | [] => none
  | p :: rest => if p.1 = k then some p.2 else lookupD rest k

/-- `d[k] = v` of a Python dict: replace the value in place if the key is
present (keeping its position), else append the new binding. -/
def insertD {κ β : Type} [DecidableEq κ] (d : List (κ × β)) (k : κ) (v : β) : List (κ × β) :=
  match d with
  | [] => [(k, v)]
  | p :: rest => if p.1 = k then (k, v) :: rest else p :: insertD rest k v

/-- `del d[k]` of a Python dict (total: no effect when the key is absent,
matching the guarded `if key in d: del d[key]` uses in the source). -/
def eraseD {κ β : Type} [DecidableEq κ] (d : List (κ × β)) (k : κ) : List (κ × β) :=
  match d with
  | [] => []
  | p :: rest => if p.1 = k then rest else p :: eraseD rest k

/-! ## Cell values and Python string primitives -/

/-- A nullable scalar cell value as produced by `polars` `.to_list()`:
Python `None`, `int`, `float` (embedded as a rational), `bool` or `str`. -/
inductive Value where
  | vNone : Value
  | vInt (n : Int) : Value
  | vFloat (q : Rat) : Value
  | vBool (b : Bool) : Value
  | vStr (s : String) : Value
deriving DecidableEq, Repr

/-- Best-effort decimal rendering of an embedded float (only used for the
cosmetic `str()` / cast-to-Utf8 paths, which no theorem depends on). -/
def ratStr (q : Rat) : String :=
  if q.den = 1 then toString q.num ++ ".0"
  else toString q.num ++ "/" ++ toString q.den

/-- Python `str(value)`. -/
def pyStr (v : Value) : String :=
  match v with
  | .vNone => "None"
  | .vInt n => toString n
  | .vFloat q => ratStr q
  | .vBool b => if b then "True" else "False"
  | .vStr s => s

/-- Whitespace stripped by Python `str.strip()` (the ASCII whitespace set
plus the no-break space; other rare Unicode space characters are omitted). -/
def isPyWs (c : Char) : Bool :=
  c == ' ' || c == '\t' || c == '\n' || c == '\r' ||
  c == '\x0b' || c == '\x0c' || c == ' '

/-- Python `s.strip()`. -/
def pyStrip (s : String) : String :=
  String.mk (((s.data.dropWhile isPyWs).reverse.dropWhile isPyWs).reverse)

/-- All-decimal-digit run to its numeric value; `none` when empty or when a
non-digit occurs. -/
def digitsToNat (l : List Char) : Option Nat :=
  if l ≠ [] ∧ l.all (fun c => c.isDigit) then
    some (l.foldl (fun a c => a * 10 + (c.toNat - 48)) 0)
  else none

/-- Python `int(s)` on a string: surrounding whitespace ignored, optional
sign, decimal digits (underscore separators are not modelled). -/
def pyInt (s : String) : Option Int :=
  match (pyStrip s).data with
  | '+' :: rest => (digitsToNat rest).map Int.ofNat
  | '-' :: rest => (digitsToNat rest).map (fun n => -(n : Int))
  | l => (digitsToNat l).map Int.ofNat

/-- Signed decimal digit run (exponent part of a float literal). -/
def parseSignedDigits (l : List Char) : Option Int :=
  match l with
  | '+' :: rest => (digitsToNat rest).map Int.ofNat
  | '-' :: rest => (digitsToNat rest).map (fun n => -(n : Int))
  | rest => (digitsToNat rest).map Int.ofNat

/-- Trailing exponent of a float literal: empty means exponent 0. -/
def parseExp (l : List Char) : Option Int :=
  match l with
  | [] => some 0
  | 'e' :: rest => parseSignedDigits rest
  | 'E' :: rest => parseSignedDigits rest
  | _ => none

/-- Numeric value of a digit run. -/
def digitsVal (l : List Char) : Nat :=
  l.foldl (fun a c => a * 10 + (c.toNat - 48)) 0

/-- Python `float(s)` on a string: optional sign, decimal mantissa with
optional fraction, optional exponent; `inf` / `nan` spellings are not
modelled (they do not occur in the claims). Result as an exact rational. -/
def pyFloat (s : String) : Option Rat :=
  let t := (pyStrip s).data
  let sgnBody : Rat × List Char :=
    match t with
    | '+' :: r => (1, r)
    | '-' :: r => (-1, r)
    | r => (1, r)
  let sgn := sgnBody.1
  let ip := sgnBody.2.takeWhile (fun c => c.isDigit)
  let r1 := sgnBody.2.dropWhile (fun c => c.isDigit)
  let fpR2 : List Char × List Char :=
    match r1 with
    | '.' :: r => (r.takeWhile (fun c => c.isDigit), r.dropWhile (fun c => c.isDigit))
    | _ => ([], r1)
  let fp := fpR2.1
  let r2 := fpR2.2
  if ip = [] ∧ fp = [] then none
  else
    match parseExp r2 with
    | none => none
    | some e =>
      let mant : Rat := (digitsVal ip : Rat) + (digitsVal fp : Rat) / ((10 : Rat) ^ fp.length)
      let scaled : Rat := if 0 ≤ e then mant * (10 : Rat) ^ e.toNat else mant / (10 : Rat) ^ (-e).toNat
      some (sgn * scaled)

/-- Python `s.lower()` (ASCII case folding, as needed by the sources). -/
def pyLower (s : String) : String := s.toLower

/-! ## Ambient collaborator functions

`unicodedata.normalize("NFC", ·)` and the process-salted Python `hash` of a
string cannot be embedded; they are passed explicitly. Theorems needing
properties of NFC take them as hypotheses; witnesses instantiate with `id`
(exactly NFC's behaviour on the ASCII strings used there). -/

structure Ambient where
  nfcFn : String → String
  strHash : String → Int

/-- Ambient instantiation used by concrete evaluations: identity
normalization (NFC is the identity on the ASCII data involved) and a
constant string hash. -/
def amb0 : Ambient := ⟨id, fun _ => 0⟩

/-! ## The cell sanitizer (`PreviewTable._sanitize_cell_value`) -/

/-- Control characters removed by the regex `[\x00-\x08\x0B\x0C\x0E-\x1F]`
(tab, newline kept; carriage return is removed by the preceding step). -/
def badCtrl (c : Char) : Bool :=
  decide (c.toNat ≤ 8) || c.toNat == 11 || c.toNat == 12 ||
  (decide (14 ≤ c.toNat) && decide (c.toNat ≤ 31))

/-- Characters of the class `[ \t ]` of the trailing-whitespace regex. -/
def isTrailWs (c : Char) : Bool := c == ' ' || c == '\t' || c == ' '

/-- Effect of Python `re.sub(r'[ \t ]+$', '', text)`: `$` matches at the
end of the string and also just before a newline that ends the string, so a
whitespace run in either position is removed (at most one such run exists). -/
def stripTrailingRegex (l : List Char) : List Char :=
  if l.getLast? = some '\n' then
    ((l.dropLast.reverse.dropWhile isTrailWs).reverse) ++ ['\n']
  else (l.reverse.dropWhile isTrailWs).reverse

/-- `PreviewTable._sanitize_cell_value` (src/ui/preview_table.py:978-1012):
None becomes the empty string; otherwise convert to text, remove carriage
returns, remove the control-character class, strip the trailing-whitespace
run, then NFC-normalize (the ambient `nfcFn`). -/
def _sanitize_cell_value (nfcFn : String → String) (v : Value) : String :=
  match v with
  | .vNone => ""
  | _ =>
    let text := pyStr v
    let noCr := text.data.filter (fun c => c ≠ '\r')
    let noCtrl := noCr.filter (fun c => !(badCtrl c))
    nfcFn (String.mk (stripTrailingRegex noCtrl))

/-! ## DataFrame embedding -/

/-- A polars DataFrame: named columns of equal length. -/
structure DataFrame where
  cols : List (String × List Value)
deriving DecidableEq, Repr

/-- `df.columns`. -/
def colNames (df : DataFrame) : List String := df.cols.map Prod.fst

/-- `df[name].to_list()` (first column of that name). -/
def getCol (df : DataFrame) (name : String) : Option (List Value) := lookupD df.cols name

/-- `len(df)`. -/
def numRows (df : DataFrame) : Nat :=
  match df.cols with
  | [] => 0
  | c :: _ => c.2.length

/-- Well-formedness invariant of a loaded frame: distinct column names and
uniform column length. -/
def DataFrame.Wf (df : DataFrame) : Prop :=
  (colNames df).Nodup ∧ ∀ c ∈ df.cols, c.2.length = numRows df

/-- `df.row(i)` as a list of cell values, `none` out of range. -/
def rowAt (df : DataFrame) (i : Nat) : Option (List Value) :=
  if i < numRows df then some (df.cols.map (fun c => c.2.getD i Value.vNone)) else none

/-! ## The identity→row-index map (`hash_to_index` dict comprehension) -/

/-- Accumulating form of the dict comprehension
`{h: i for i, h in enumerate(hashes)}` starting at row `i`. -/
def buildHashIndexAux {κ : Type} [DecidableEq κ] (d : List (κ × Nat)) (i : Nat) :
    List κ → List (κ × Nat)
  | [] => d
  | h :: rest => buildHashIndexAux (insertD d h i) (i + 1) rest

/-- `hash_to_index = {h: i for i, h in enumerate(hashes)}`
(a later duplicate hash overwrites an earlier one, as in a Python dict). -/
def buildHashIndex {κ : Type} [DecidableEq κ] (hashes : List κ) : List (κ × Nat) :=
  buildHashIndexAux [] 0 hashes

/-! ## Export write-back coercion (`get_edited_dataframe`, lines 1164-1182) -/

/-- Python `isinstance(v, int)`: true for `bool` as well (`bool` is a
subclass of `int` in Python). -/
def pyIsInstInt : Value → Bool
  | .vInt _ => true
  | .vBool _ => true
  | _ => false

/-- Python `isinstance(v, float)`. -/
def pyIsInstFloat : Value → Bool
  | .vFloat _ => true
  | _ => false

/-- Python `isinstance(v, bool)`. -/
def pyIsInstBool : Value → Bool
  | .vBool _ => true
  | _ => false

/-- The per-cell type conversion of `get_edited_dataframe`
(src/ui/preview_table.py:1164-1182): dispatch on the ORIGINAL cell value's
Python type via `isinstance` (so a `bool` original takes the `int` branch),
blank text gives null in the numeric branches, parse failure falls back to
storing the raw text. -/
def coerce_edit (original_value : Value) (new_value : String) : Value :=
  if pyIsInstInt original_value then
    if new_value ≠ "" ∧ pyStrip new_value ≠ "" then
      match pyInt new_value with
      | some n => .vInt n
      | none => .vStr new_value
    else .vNone
  else if pyIsInstFloat original_value then
    if new_value ≠ "" ∧ pyStrip new_value ≠ "" then
      match pyFloat new_value with
      | some q => .vFloat q
      | none => .vStr new_value
    else .vNone
  else if pyIsInstBool original_value then
    if new_value ≠ "" then
      .vBool (pyLower new_value == "true" || pyLower new_value == "1" ||
              pyLower new_value == "yes")
    else .vNone
  else .vStr new_value

/-- The coercion contract as amended: written from the (corrected) spec
wording, independent of the source's `isinstance` chain. An integer or
boolean original coerces through int parsing (null if blank, raw text on
failure); a float original through float parsing (null if blank, raw text
on failure); anything else keeps the text. -/
def coerceSpecAmended (original : Value) (t : String) : Value :=
  match original with
  | .vInt _ =>
      if pyStrip t = "" then .vNone
      else
        match pyInt t with
        | some n => .vInt n
        | none => .vStr t
  | .vBool _ =>
      if pyStrip t = "" then .vNone
      else
        match pyInt t with
        | some n => .vInt n
        | none => .vStr t
  | .vFloat _ =>
      if pyStrip t = "" then .vNone
      else
        match pyFloat t with
        | some q => .vFloat q
        | none => .vStr t
  | _ => .vStr t

/-! ## Filter engine (`src/core/filter_engine.py`) -/

/-- A single user filter rule (column, operator, textual value). -/
structure FilterRule where
  column : String
  operator : String
  value : String
deriving DecidableEq, Repr

/-- The polars expressions `_build_filter_expression` can produce, deep
embedded so that built rules can be combined and inspected. -/
inductive FilterExpr where
  | eqLower (c : String) (v : String) : FilterExpr
  | neLower (c : String) (v : String) : FilterExpr
  | containsLower (c : String) (v : String) : FilterExpr
  | notContainsLower (c : String) (v : String) : FilterExpr
  | startsWithLower (c : String) (v : String) : FilterExpr
  | endsWithLower (c : String) (v : String) : FilterExpr
  | regexContains (c : String) (pat : String) : FilterExpr
  | gtNum (c : String) (q : Rat) : FilterExpr
  | ltNum (c : String) (q : Rat) : FilterExpr
  | gteNum (c : String) (q : Rat) : FilterExpr
  | lteNum (c : String) (q : Rat) : FilterExpr
  | betweenNum (c : String) (lo hi : Rat) : FilterExpr
  | isNotNull (c : String) : FilterExpr
  | isNull (c : String) : FilterExpr
  | andE (a b : FilterExpr) : FilterExpr
  | orE (a b : FilterExpr) : FilterExpr
deriving DecidableEq, Repr

/-- The engine state: source frame, added rules, logic mode. -/
structure FilterEngine where
  dataframe : DataFrame
  applied_filters : List FilterRule
  filter_logic : String
deriving Repr

/-- polars cast to Utf8 of a cell: null stays null. Float rendering is the
best-effort `ratStr`. -/
def castUtf8 : Value → Option String
  | .vNone => none
  | .vInt n => some (toString n)
  | .vFloat q => some (ratStr q)
  | .vBool b => some (if b then "true" else "false")
  | .vStr s => some s

/-- Numeric view of a cell for the comparison operators (`none` = null or
non-numeric, in which case the tri-valued comparison is null). -/
def numView : Value → Option Rat
  | .vInt n => some (n : Rat)
  | .vFloat q => some q
  | _ => none

/-- Kleene conjunction of tri-valued booleans (polars `&`). -/
def andK : Option Bool → Option Bool → Option Bool
  | some false, _ => some false
  | _, some false => some false
  | some true, some true => some true
  | _, _ => none

/-- Kleene disjunction of tri-valued booleans (polars `|`). -/
def orK : Option Bool → Option Bool → Option Bool
  | some true, _ => some true
  | _, some true => some true
  | some false, some false => some false
  | _, _ => none

/-- Tri-valued negation (polars `~`). -/
def notK : Option Bool → Option Bool
  | some b => some (!b)
  | none => none

/-- Evaluate a built expression at row `i` of a frame. String-operator
patterns are modelled on literal patterns (substring containment stands in
for the regex engine, which no claim exercises). -/
def evalExpr (df : DataFrame) (e : FilterExpr) (i : Nat) : Option Bool :=
  match e with
  | .eqLower c v =>
      ((getCol df c).bind (fun col => col.get? i)).bind
        (fun cell => (castUtf8 cell).map (fun s => pyLower s == v))
  | .neLower c v =>
      ((getCol df c).bind (fun col => col.get? i)).bind
        (fun cell => (castUtf8 cell).map (fun s => pyLower s != v))
  | .containsLower c v =>
      ((getCol df c).bind (fun col => col.get? i)).bind
        (fun cell => (castUtf8 cell).map (fun s => (pyLower s).containsSubstr v))
  | .notContainsLower c v =>
      notK (((getCol df c).bind (fun col => col.get? i)).bind
        (fun cell => (castUtf8 cell).map (fun s => (pyLower s).containsSubstr v)))
  | .startsWithLower c v =>
      ((getCol df c).bind (fun col => col.get? i)).bind
        (fun cell => (castUtf8 cell).map (fun s => (pyLower s).startsWith v))
  | .endsWithLower c v =>
      ((getCol df c).bind (fun col => col.get? i)).bind
        (fun cell => (castUtf8 cell).map (fun s => (pyLower s).endsWith v))
  | .regexContains c pat =>
      ((getCol df c).bind (fun col => col.get? i)).bind
        (fun cell => (castUtf8 cell).map (fun s => s.containsSubstr pat))
  | .gtNum c q =>
      ((getCol df c).bind (fun col => col.get? i)).bind
        (fun cell => (numView cell).map (fun x => decide (q < x)))
  | .ltNum c q =>
      ((getCol df c).bind (fun col => col.get? i)).bind
        (fun cell => (numView cell).map (fun x => decide (x < q)))
  | .gteNum c q =>
      ((getCol df c).bind (fun col => col.get? i)).bind
        (fun cell => (numView cell).map (fun x => decide (q ≤ x)))
  | .lteNum c q =>
      ((getCol df c).bind (fun col => col.get? i)).bind
        (fun cell => (numView cell).map (fun x => decide (x ≤ q)))
  | .betweenNum c lo hi =>
      andK
        (((getCol df c).bind (fun col => col.get? i)).bind
          (fun cell => (numView cell).map (fun x => decide (lo ≤ x))))
        (((getCol df c).bind (fun col => col.get? i)).bind
          (fun cell => (numView cell).map (fun x => decide (x ≤ hi))))
  | .isNotNull c =>
      ((getCol df c).bind (fun col => col.get? i)).map (fun cell => cell ≠ .vNone)
  | .isNull c =>
      ((getCol df c).bind (fun col => col.get? i)).map (fun cell => cell = .vNone)
  | .andE a b => andK (evalExpr df a i) (evalExpr df b i)
  | .orE a b => orK (evalExpr df a i) (evalExpr df b i)

/-- `FilterEngine._build_filter_expression`
(src/core/filter_engine.py:96-173): unknown column gives `None`; each
operator builds its expression; the numeric operators parse the value as
float then int and a double failure (or a malformed `between`) is caught by
the surrounding handler, giving `None`; unknown operators give `None`. -/
def _build_filter_expression (eng : FilterEngine) (rule : FilterRule) :
    Option FilterExpr :=
  if rule.column ∉ colNames eng.dataframe then none
  else
    let numArg : Option Rat :=
      match pyFloat rule.value with
      | some q => some q
      | none =>
        match pyInt rule.value with
        | some n => some (n : Rat)
        | none => none
    if rule.operator = "equals" then some (.eqLower rule.column (pyLower rule.value))
    else if rule.operator = "not_equals" then some (.neLower rule.column (pyLower rule.value))
    else if rule.operator = "contains" then some (.containsLower rule.column (pyLower rule.value))
    else if rule.operator = "not_contains" then some (.notContainsLower rule.column (pyLower rule.value))
    else if rule.operator = "starts_with" then some (.startsWithLower rule.column (pyLower rule.value))
    else if rule.operator = "ends_with" then some (.endsWithLower rule.column (pyLower rule.value))
    else if rule.operator = "regex" then some (.regexContains rule.column rule.value)
    else if rule.operator = "gt" then (numArg.map (fun q => .gtNum rule.column q))
    else if rule.operator = "lt" then (numArg.map (fun q => .ltNum rule.column q))
    else if rule.operator = "gte" then (numArg.map (fun q => .gteNum rule.column q))
    else if rule.operator = "lte" then (numArg.map (fun q => .lteNum rule.column q))
    else if rule.operator = "between" then
      match rule.value.splitOn "," with
      | [a, b] =>
        match pyFloat a, pyFloat b with
        | some lo, some hi => some (.betweenNum rule.column lo hi)
        | _, _ =>
          match pyInt a, pyInt b with
          | some lo, some hi => some (.betweenNum rule.column (lo : Rat) (hi : Rat))
          | _, _ => none
      | _ => none
    else if rule.operator = "not_null" then some (.isNotNull rule.column)
    else if rule.operator = "is_null" then some (.isNull rule.column)
    else none

/-- Keep the rows of a frame whose index satisfies the predicate
(`df.filter(expr)`: a row is kept only when the combined expression
evaluates to true, not to null). -/
def filterRows (df : DataFrame) (keep : Nat → Bool) : DataFrame :=
  ⟨df.cols.map (fun c =>
    (c.1, ((List.range c.2.length).filter keep).filterMap (fun i => c.2.get? i)))⟩

/-- `FilterEngine.apply_filters` (src/core/filter_engine.py:54-94): no rules
at all gives a clone of the source; rules that fail to build are dropped;
zero buildable rules gives the unfiltered clone; otherwise the buildable
expressions are chained with `&` (logic "AND") or `|` (anything else) and
applied. -/
def apply_filters (eng : FilterEngine) (logic : String) : DataFrame :=
  if eng.applied_filters.isEmpty then eng.dataframe
  else
    let filter_expressions :=
      eng.applied_filters.filterMap (fun r => _build_filter_expression eng r)
    match filter_expressions with
    | [] => eng.dataframe
    | e :: rest =>
      let combined :=
        if logic.toUpper = "AND" then rest.foldl (fun a b => FilterExpr.andE a b) e
        else rest.foldl (fun a b => FilterExpr.orE a b) e
      filterRows eng.dataframe (fun i => evalExpr eng.dataframe combined i = some true)

/-! ## Exporter (`src/core/exporter.py`) -/

/-- The cell grid actually written to a sheet or CSV: a header row of
column names followed by the data rows (nulls written as empty text, as in
`display_value = "" if value is None else value`). -/
structure WrittenGrid where
  headers : List String
  rows : List (List Value)
deriving DecidableEq, Repr

/-- The internal-column drop shared by both exporters
(src/core/exporter.py:72-73 and 248-249):
`df.drop("_row_hash") if "_row_hash" in df.columns else df`. -/
def dropInternal (df : DataFrame) : DataFrame :=
  if "_row_hash" ∈ colNames df then
    ⟨df.cols.filter (fun c => c.1 ≠ "_row_hash")⟩
  else df

/-- Null cells are serialized as empty text. -/
def exportCell (v : Value) : Value :=
  match v with
  | .vNone => .vStr ""
  | v => v

/-- `ExcelExporter.export` (src/core/exporter.py:24-208), reduced to the
written content: drop the internal column, write the header row, then every
data row (the chunked and unchunked paths write the same cells). -/
def ExcelExporter.export (dataframe : DataFrame) : WrittenGrid :=
  let df := dropInternal dataframe
  ⟨colNames df,
   (List.range (numRows df)).map (fun i =>
     (df.cols.map (fun c => exportCell (c.2.getD i Value.vNone))))⟩

/-- `ExcelExporter.export_to_csv` (src/core/exporter.py:216-288), reduced to
the written content: drop the internal column, then `df.write_csv()`
serializes the header row and the data rows. -/
def ExcelExporter.export_to_csv (dataframe : DataFrame) : WrittenGrid :=
  let df := dropInternal dataframe
  ⟨colNames df,
   (List.range (numRows df)).map (fun i =>
     (df.cols.map (fun c => exportCell (c.2.getD i Value.vNone))))⟩

/-! ## Preview table state (`src/ui/preview_table.py`) -/

/-- Overlay key: `(sheet_name, row_hash, col_name)`. -/
abbrev EditKey := String × String × String

/-- The core state of `PreviewTable`: the fields touched by the edit
overlay, display cache, pagination and export logic (pure UI widgets such
as labels and buttons are outside the embedding). -/
structure PreviewTable where
  dataframe : Option DataFrame
  original_dataframe : Option DataFrame
  current_page : Nat
  rows_per_page : Nat
  sort_column : Option String
  sort_ascending : Bool
  current_sheet_name : String
  edits : List (EditKey × String)
  original_values : List (EditKey × String)
  edit_version : Nat
  display_data_cache : Option DataFrame
  display_data_cache_valid : Bool
deriving Repr

/-- `PreviewTable._get_visible_columns`: all columns except `_row_hash`. -/
def _get_visible_columns (df : Option DataFrame) : List String :=
  match df with
  | none => []
  | some df => (colNames df).filter (fun c => c ≠ "_row_hash")

/-- `PreviewTable._get_row_hash`: join the row's values with `|`
(None as empty) and apply the ambient string hash. -/
def _get_row_hash (amb : Ambient) (row : List Value) : String :=
  let row_str := String.intercalate "|"
    (row.map (fun v => if v = Value.vNone then "" else pyStr v))
  toString (amb.strHash row_str)

/-- `PreviewTable._find_row_hash_in_original`: hash of the first row of the
original frame whose sanitized cells all equal the given row's; falls back
to hashing the given row directly. -/
def _find_row_hash_in_original (amb : Ambient) (st : PreviewTable)
    (row_data : List Value) : String :=
  match st.original_dataframe with
  | none => _get_row_hash amb row_data
  | some odf =>
    let rows := (List.range (numRows odf)).map (fun i => (rowAt odf i).getD [])
    match rows.find? (fun orow =>
        orow.length == row_data.length &&
        (List.zip orow row_data).all (fun p =>
          _sanitize_cell_value amb.nfcFn p.1 == _sanitize_cell_value amb.nfcFn p.2)) with
    | some orow => _get_row_hash amb orow
    | none => _get_row_hash amb row_data

/-- `PreviewTable._get_row_hash_from_frame`: `str(df[row_idx, "_row_hash"])`
when the column exists (empty string when the row access fails), else the
legacy search. -/
def _get_row_hash_from_frame (amb : Ambient) (st : PreviewTable) (df : DataFrame)
    (row_idx : Nat) : String :=
  match getCol df "_row_hash" with
  | some vals =>
    match vals.get? row_idx with
    | some v => pyStr v
    | none => ""
  | none =>
    match rowAt df row_idx with
    | some row => _find_row_hash_in_original amb st row
    | none => ""

/-- `PreviewTable._column_has_edits`: some overlay key matches the current
sheet and the column. -/
def _column_has_edits (st : PreviewTable) (col_name : String) : Bool :=
  st.edits.any (fun p =>
    p.1.1 == st.current_sheet_name && p.1.2.2 == col_name)

/-- Rank used to order heterogeneous sort keys (the patched series mixes
textual edits into a typed column). -/
def valueRank : Value → Nat
  | .vNone => 0
  | .vBool _ => 1
  | .vInt _ => 2
  | .vFloat _ => 2
  | .vStr _ => 3

/-- Deterministic total order on cell values used to model the sort. -/
def valueLe (a b : Value) : Bool :=
  if valueRank a ≠ valueRank b then decide (valueRank a < valueRank b)
  else
    match a, b with
    | .vBool x, .vBool y => !x || y
    | .vStr x, .vStr y => decide (x ≤ y)
    | a, b => decide ((numView a).getD 0 ≤ (numView b).getD 0)

/-- Stable insertion into a sorted list. -/
def insertSorted {α : Type} (le : α → α → Bool) (a : α) : List α → List α
  | [] => [a]
  | b :: rest => if le a b then a :: b :: rest else b :: insertSorted le a rest

/-- Stable sort by a boolean comparison (models the deterministic order
`df.sort` produces; stability assumptions are never used by a theorem). -/
def insertionSortBy {α : Type} (le : α → α → Bool) : List α → List α
  | [] => []
  | a :: rest => insertSorted le a (insertionSortBy le rest)

/-- Sort the rows of a frame by a key per row (the temporary sort column of
`_get_display_data`), ascending or descending. -/
def sortByKeys (df : DataFrame) (keys : List Value) (descending : Bool) : DataFrame :=
  let le : Nat → Nat → Bool := fun i j =>
    let ki := keys.getD i Value.vNone
    let kj := keys.getD j Value.vNone
    if descending then valueLe kj ki else valueLe ki kj
  let perm := insertionSortBy le (List.range (numRows df))
  ⟨df.cols.map (fun c => (c.1, perm.map (fun i => c.2.getD i Value.vNone)))⟩

/-- The patched sort key of `_get_display_data` (lines 678-690): the sort
column's values with the overlay values of the current sheet and column
written in at the positions resolved through the identity→index map. -/
def patchedSortKeys (st : PreviewTable) (df : DataFrame) (sc : String) : List Value :=
  let base := (getCol df sc).getD []
  let hashIdx : List (Value × Nat) :=
    match getCol df "_row_hash" with
    | some hs => buildHashIndex hs
    | none => []
  st.edits.foldl (fun acc p =>
    if p.1.1 = st.current_sheet_name ∧ p.1.2.2 = sc then
      match lookupD hashIdx (Value.vStr p.1.2.1) with
      | some idx => if idx < acc.length then acc.set idx (Value.vStr p.2) else acc
      | none => acc
    else acc) base

/-- `PreviewTable._get_display_data` (lines 662-707): returns the cached
frame when the cache is valid, else recomputes (sorting by the patched
series when the sort column carries overlay edits for the current sheet)
and fills the cache. The returned pair is (returned frame, updated state). -/
def _get_display_data (st : PreviewTable) : Option DataFrame × PreviewTable :=
  match st.dataframe with
  | none => (none, st)
  | some df =>
    if st.display_data_cache_valid ∧ st.display_data_cache.isSome then
      (st.display_data_cache, st)
    else
      let display :=
        match st.sort_column with
        | none => df
        | some sc =>
          if sc ∈ colNames df ∧ sc ≠ "_row_hash" then
            if st.edits ≠ [] ∧ _column_has_edits st sc then
              sortByKeys df (patchedSortKeys st df sc) (!st.sort_ascending)
            else
              sortByKeys df ((getCol df sc).getD []) (!st.sort_ascending)
          else df
      (some display,
       { st with display_data_cache := some display, display_data_cache_valid := true })

/-- The pagination arithmetic of `PreviewTable._update_table`
(lines 731-739): clamp the current page, then derive the page window. -/
def update_table_pagination (current_page rows_per_page total_rows : Nat) :
    Nat × Nat × Nat :=
  let total_pages := (total_rows + rows_per_page - 1) / rows_per_page
  let page := min current_page (max 0 (total_pages - 1))
  let start_row := page * rows_per_page
  let end_row := min (start_row + rows_per_page) total_rows
  (page, start_row, end_row)

/-- `row[columns.index(col_name)]` with the surrounding try/except: the cell
value, `None` on any failure. -/
def cellAt (df : DataFrame) (colName : String) (i : Nat) : Value :=
  match getCol df colName with
  | some vals => vals.getD i Value.vNone
  | none => Value.vNone

/-- State effects of populating one cell of the page
(`_update_table` lines 782-833): lazily seed the original-value snapshot,
and drop an overlay entry that equals its recorded original. -/
def populate_cell (amb : Ambient) (st : PreviewTable) (display : DataFrame)
    (rowHash : String) (absIdx : Nat) (colName : String) : PreviewTable :=
  let value := cellAt display colName absIdx
  let key : EditKey := (st.current_sheet_name, rowHash, colName)
  let text :=
    match lookupD st.edits key with
    | some t => t
    | none => _sanitize_cell_value amb.nfcFn value
  let st :=
    if (lookupD st.original_values key).isNone then
      { st with original_values :=
          insertD st.original_values key (_sanitize_cell_value amb.nfcFn value) }
    else st
  match lookupD st.edits key with
  | some edited_val =>
    let orig_val := (lookupD st.original_values key).getD text
    if edited_val ≠ orig_val then st
    else { st with edits := eraseD st.edits key }
  | none => st

/-- State effects of populating one page row (`_update_table` lines 775-833):
resolve the row's identity, then populate each visible column. -/
def populate_row (amb : Ambient) (st : PreviewTable) (display : DataFrame)
    (startRow rowIdx : Nat) : PreviewTable :=
  let absIdx := startRow + rowIdx
  let rowHash :=
    match getCol display "_row_hash" with
    | some vals => pyStr (vals.getD absIdx Value.vNone)
    | none => _find_row_hash_in_original amb st ((rowAt display absIdx).getD [])
  (_get_visible_columns (some display)).foldl
    (fun st c => populate_cell amb st display rowHash absIdx c) st

/-- State effects of the population loop over the whole page window. -/
def populate_page (amb : Ambient) (st : PreviewTable) (display : DataFrame)
    (startRow endRow : Nat) : PreviewTable :=
  (List.range (endRow - startRow)).foldl
    (fun st r => populate_row amb st display startRow r) st

/-- `PreviewTable._update_table` (lines 716-853), reduced to its state
effects: fetch (and possibly fill) the display cache, clamp the current
page, and run the population loop over the page window. -/
def _update_table (amb : Ambient) (st : PreviewTable) : PreviewTable :=
  let pair := _get_display_data st
  let st := pair.2
  match pair.1 with
  | none => st
  | some display =>
    if numRows display = 0 then st
    else
      let trip := update_table_pagination st.current_page st.rows_per_page (numRows display)
      let st := { st with current_page := trip.1 }
      populate_page amb st display trip.2.1 trip.2.2

/-- `PreviewTable._on_item_changed` (lines 1014-1090), given the resolved
cell coordinates: `rowHash`/`colName` are what the code reads off the frame
for the edited widget item, `new_value` is `item.text()`, and `pageVal` is
the underlying source cell `page_data[row_idx, col_name]` used to seed a
missing snapshot. Equal-to-original text deletes any overlay entry
(auto-revert); different text upserts the entry and bumps the version. -/
def _on_item_changed (amb : Ambient) (st : PreviewTable)
    (rowHash colName new_value : String) (pageVal : Value) : PreviewTable :=
  match st.dataframe with
  | none => st
  | some _ =>
    let pair := _get_display_data st
    let st := pair.2
    match pair.1 with
    | none => st
    | some _ =>
      let key : EditKey := (st.current_sheet_name, rowHash, colName)
      let origSt : String × PreviewTable :=
        match lookupD st.original_values key with
        | some o => (o, st)
        | none =>
          let underlying := _sanitize_cell_value amb.nfcFn pageVal
          (underlying,
           { st with original_values := insertD st.original_values key underlying })
      let orig_val := origSt.1
      let st := origSt.2
      if new_value = orig_val then
        { st with edits := eraseD st.edits key }
      else
        { st with edits := insertD st.edits key new_value,
                  edit_version := st.edit_version + 1 }

/-- `PreviewTable.clear_edits` (lines 1203-1211): clear both maps, then
refresh the table (the refresh re-seeds snapshots for the visible page).
The edit version counter is not touched. -/
def clear_edits (amb : Ambient) (st : PreviewTable) : PreviewTable :=
  let st := { st with edits := [], original_values := [] }
  _update_table amb st

/-- The base-table choice of `get_edited_dataframe` (line 1116): the current
(possibly filtered) frame when `use_current_view`, else the original
unfiltered frame, falling back to the current frame. -/
def chooseExportSource (st : PreviewTable) (use_current_view : Bool) : Option DataFrame :=
  if use_current_view then st.dataframe
  else
    match st.original_dataframe with
    | some odf => some odf
    | none => st.dataframe

/-- The `col_edits` dict of `get_edited_dataframe` (lines 1147-1154) for one
column: overlay entries of the current sheet and this column, resolved
through the identity→index map; unresolved identities are skipped. -/
def colEditStep (sheet : String) (hashIdx : List (Value × Nat)) (col_name : String)
    (d : List (Nat × String)) (p : EditKey × String) : List (Nat × String) :=
  if p.1.1 = sheet ∧ p.1.2.2 = col_name then
    match lookupD hashIdx (Value.vStr p.1.2.1) with
    | some idx => insertD d idx p.2
    | none => d
  else d

def buildColEdits (st : PreviewTable) (hashIdx : List (Value × Nat))
    (col_name : String) : List (Nat × String) :=
  st.edits.foldl (colEditStep st.current_sheet_name hashIdx col_name) []

/-- Apply one column's resolved edits to its value list (lines 1160-1182):
each target cell is replaced by the type-coerced overlay text. -/
def applyColEdits (col_data : List Value) (col_edits : List (Nat × String)) : List Value :=
  col_edits.foldl (fun arr p =>
    arr.set p.1 (coerce_edit (arr.getD p.1 Value.vNone) p.2)) col_data

/-- `df.with_columns(pl.Series(name, values))`: replace the column of that
name, or append it when absent. -/
def replaceColumn (df : DataFrame) (name : String) (vals : List Value) : DataFrame :=
  if name ∈ colNames df then
    ⟨df.cols.map (fun c => if c.1 = name then (name, vals) else c)⟩
  else ⟨df.cols ++ [(name, vals)]⟩

/-- Body of the per-column loop of `get_edited_dataframe` (lines 1143-1191):
skip the internal column, skip columns with no resolved edits, else replace
the column with its patched values (computed from the SOURCE frame). -/
def frameEditStep (st : PreviewTable) (hashIdx : List (Value × Nat))
    (source_df : DataFrame) (acc : DataFrame) (col_name : String) : DataFrame :=
  if col_name = "_row_hash" then acc
  else
    let col_edits := buildColEdits st hashIdx col_name
    if col_edits = [] then acc
    else
      let col_data := (getCol source_df col_name).getD []
      replaceColumn acc col_name (applyColEdits col_data col_edits)

/-- `PreviewTable.get_edited_dataframe` (lines 1104-1201): pick the base per
`use_current_view`; with no edits return it unchanged; otherwise build the
identity→index map from the base's `_row_hash` column (empty when the
column is missing) and patch each non-internal column with its resolved,
type-coerced overlay entries. -/
def get_edited_dataframe (st : PreviewTable) (use_current_view : Bool) :
    Option DataFrame :=
  match chooseExportSource st use_current_view with
  | none => none
  | some source_df =>
    if st.edits = [] then some source_df
    else
      let hashIdx : List (Value × Nat) :=
        match getCol source_df "_row_hash" with
        | some hs => buildHashIndex hs
        | none => []
      some ((colNames source_df).foldl (frameEditStep st hashIdx source_df) source_df)

/-! ## Spec-side predicates -/

/-- The overlay invariant of the spec: an overlay entry exists for a key
only while its stored value differs from the recorded original value for
that key. -/
def OverlayInvariant (st : PreviewTable) : Prop :=
  ∀ k v o, lookupD st.edits k = some v → lookupD st.original_values k = some o → v ≠ o

/-- The original value `_on_item_changed` resolves for a cell: the recorded
snapshot when present, else the sanitized underlying source value the
handler seeds a missing snapshot with. -/
def resolvedOriginal (amb : Ambient) (st : PreviewTable) (rowHash colName : String)
    (pageVal : Value) : String :=
  (lookupD st.original_values (st.current_sheet_name, rowHash, colName)).getD
    (_sanitize_cell_value amb.nfcFn pageVal)

/-! ## Concrete example data -/

/-- Two-row frame, sorted ascending by `A`. -/
def c3Df : DataFrame :=
  ⟨[("A", [Value.vInt 1, Value.vInt 3]),
    ("_row_hash", [Value.vStr "h1", Value.vStr "h2"])]⟩

/-- A state whose display cache holds the frame sorted by the current sort
column `A`, with a recorded snapshot for the first row's `A` cell. -/
def c3St : PreviewTable :=
  { dataframe := some c3Df, original_dataframe := some c3Df,
    current_page := 0, rows_per_page := 100,
    sort_column := some "A", sort_ascending := true,
    current_sheet_name := "Sheet1",
    edits := [], original_values := [(("Sheet1", "h1", "A"), "1")],
    edit_version := 0,
    display_data_cache := some c3Df, display_data_cache_valid := true }

/-- A state with one pending edit, one snapshot and edit version 5 (and no
loaded frame, so the refresh inside `clear_edits` is a no-op). -/
def c5St : PreviewTable :=
  { dataframe := none, original_dataframe := none,
    current_page := 0, rows_per_page := 100,
    sort_column := none, sort_ascending := true,
    current_sheet_name := "Sheet1",
    edits := [(("Sheet1", "h1", "A"), "x")],
    original_values := [(("Sheet1", "h1", "A"), "1")],
    edit_version := 5,
    display_data_cache := none, display_data_cache_valid := false }

def c2Df : DataFrame :=
  ⟨[("A", [Value.vInt 1, Value.vInt 3]),
    ("_row_hash", [Value.vStr "h1", Value.vStr "h2"])]⟩

/-- A state with a pending edit `"x"` over a recorded original `"1"`. -/
def c2St : PreviewTable :=
  { dataframe := some c2Df, original_dataframe := some c2Df,
    current_page := 0, rows_per_page := 100,
    sort_column := none, sort_ascending := true,
    current_sheet_name := "Sheet1",
    edits := [(("Sheet1", "h1", "A"), "x")],
    original_values := [(("Sheet1", "h1", "A"), "1")],
    edit_version := 1,
    display_data_cache := none, display_data_cache_valid := false }

def c6Df : DataFrame :=
  ⟨[("A", [Value.vInt 1, Value.vInt 3]),
    ("_row_hash", [Value.vStr "h1", Value.vStr "h2"])]⟩

/-- A clean state with a recorded snapshot `"1"` for the first row's `A`. -/
def c6St : PreviewTable :=
  { dataframe := some c6Df, original_dataframe := some c6Df,
    current_page := 0, rows_per_page := 100,
    sort_column := none, sort_ascending := true,
    current_sheet_name := "Sheet1",
    edits := [], original_values := [(("Sheet1", "h1", "A"), "1")],
    edit_version := 0,
    display_data_cache := none, display_data_cache_valid := false }

/-- Three-row source frame of the concrete export scenario. -/
def c1Df : DataFrame :=
  ⟨[("ID", [Value.vInt 1, Value.vInt 2, Value.vInt 3]),
    ("Age", [Value.vInt 25, Value.vInt 30, Value.vInt 35]),
    ("_row_hash", [Value.vStr "h1", Value.vStr "h2", Value.vStr "h3"])]⟩

/-- The `_row_hash` column of `c1Df`. -/
def c1Hashes : List Value := [Value.vStr "h1", Value.vStr "h2", Value.vStr "h3"]

/-- A state with one pending edit (`Age` of the second row to `"31"`). -/
def c1St : PreviewTable :=
  { dataframe := some c1Df, original_dataframe := some c1Df,
    current_page := 0, rows_per_page := 100,
    sort_column := none, sort_ascending := true,
    current_sheet_name := "Sheet1",
    edits := [(("Sheet1", "h2", "Age"), "31")],
    original_values := [(("Sheet1", "h2", "Age"), "30")],
    edit_version := 1,
    display_data_cache := none, display_data_cache_valid := false }

/-- An engine whose single rule uses an unknown operator. -/
def c7Eng : FilterEngine :=
  ⟨⟨[("Age", [Value.vInt 25, Value.vInt 30])]⟩,
   [⟨"Age", "frobnicate", "26"⟩], "AND"⟩

/-! ## Theorems -/
theorem lookupD_cons {κ β : Type} [DecidableEq κ] (p : κ × β) (d : List (κ × β)) (k : κ) :
    lookupD (p :: d) k = if p.1 = k then some p.2 else lookupD d k := rfl

theorem lookupD_append {κ β : Type} [DecidableEq κ] (d₁ d₂ : List (κ × β)) (k : κ) :
    lookupD (d₁ ++ d₂) k = ((lookupD d₁ k).or (lookupD d₂ k)) := by
  induction d₁ with
  | nil => simp [lookupD]
  | cons p rest ih =>
    by_cases h : p.1 = k <;> simp [lookupD, h, ih]

theorem lookupD_mem {κ β : Type} [DecidableEq κ] {d : List (κ × β)} {k : κ} {v : β}
    (h : lookupD d k = some v) : (k, v) ∈ d := by
  induction d with
  | nil => simp [lookupD] at h
  | cons p rest ih =>
    rw [lookupD_cons] at h
    by_cases hk : p.1 = k
    · simp only [hk, if_true, Option.some_inj] at h
      have : p = (k, v) := by
        cases p; cases hk; cases h; rfl
      rw [this] at *
      exact List.mem_cons_self _ _
    · simp only [hk, if_false] at h
      exact List.mem_cons_of_mem _ (ih h)

theorem lookupD_insertD_self {κ β : Type} [DecidableEq κ] (d : List (κ × β)) (k : κ) (v : β) :
    lookupD (insertD d k v) k = some v := by
  induction d with
  | nil => simp [insertD, lookupD]
  | cons p rest ih =>
    by_cases hk : p.1 = k
    · simp [insertD, lookupD, hk]
    · simp [insertD, lookupD, hk, ih]

theorem lookupD_insertD_ne {κ β : Type} [DecidableEq κ] (d : List (κ × β)) (k k' : κ) (v : β)
    (h : k' ≠ k) : lookupD (insertD d k v) k' = lookupD d k' := by
  have hkk : ¬ (k = k') := fun hh => h hh.symm
  induction d with
  | nil => simp [insertD, lookupD, hkk]
  | cons p rest ih =>
    by_cases hk : p.1 = k
    · have hp : ¬ (p.1 = k') := by rw [hk]; exact hkk
      simp [insertD, lookupD, hk, hkk, hp]
    · by_cases hk' : p.1 = k'
      · simp [insertD, lookupD, hk, hk', hkk, h]
      · simp [insertD, lookupD, hk, hk', ih]

theorem lookupD_eraseD_ne {κ β : Type} [DecidableEq κ] (d : List (κ × β)) (k k' : κ)
    (h : k' ≠ k) : lookupD (eraseD d k) k' = lookupD d k' := by
  have hkk : ¬ (k = k') := fun hh => h hh.symm
  induction d with
  | nil => rfl
  | cons p rest ih =>
    by_cases hk : p.1 = k
    · have hp : ¬ (p.1 = k') := by rw [hk]; exact hkk
      simp [eraseD, lookupD, hk, hp, hkk]
    · by_cases hk' : p.1 = k'
      · simp [eraseD, lookupD, hk, hk', hkk, h]
      · simp [eraseD, lookupD, hk, hk', ih]

/-- Keys of a dict built with `insertD` stay duplicate-free. -/
theorem nodupKeys_insertD {κ β : Type} [DecidableEq κ] (d : List (κ × β)) (k : κ) (v : β)
    (hnd : (d.map Prod.fst).Nodup) : ((insertD d k v).map Prod.fst).Nodup := by
  induction d with
  | nil => simp [insertD]
  | cons p rest ih =>
    rcases List.nodup_cons.mp hnd with ⟨hp, hrest⟩
    by_cases hk : p.1 = k
    · rw [insertD, if_pos hk]
      rw [List.map_cons, List.nodup_cons]
      refine ⟨?_, hrest⟩
      rw [← hk]
      exact hp
    · rw [insertD, if_neg hk]
      rw [List.map_cons, List.nodup_cons]
      refine ⟨?_, ih hrest⟩
      intro hmem
      -- p.1 appears among keys of `insertD rest k v`, which are keys of rest plus k
      have : ∀ (l : List (κ × β)) (a : κ), a ∈ (insertD l k v).map Prod.fst →
          a ∈ l.map Prod.fst ∨ a = k := by
        intro l
        induction l with
        | nil =>
          intro a ha
          simp [insertD] at ha
          exact Or.inr ha
        | cons q qrest qih =>
          intro a ha
          by_cases hq : q.1 = k
          · rw [insertD, if_pos hq] at ha
            rcases List.mem_cons.mp ha with h1 | h1
            · exact Or.inr h1
            · exact Or.inl (by rw [List.map_cons]; exact List.mem_cons_of_mem _ h1)
          · rw [insertD, if_neg hq] at ha
            rcases List.mem_cons.mp ha with h1 | h1
            · exact Or.inl (by rw [List.map_cons, h1]; exact List.mem_cons_self _ _)
            · rcases qih a h1 with h2 | h2
              · exact Or.inl (by rw [List.map_cons]; exact List.mem_cons_of_mem _ h2)
              · exact Or.inr h2
      rcases this rest p.1 hmem with h1 | h1
      · exact hp h1
      · exact hk h1

theorem eraseD_keys_sub {κ β : Type} [DecidableEq κ] (d : List (κ × β)) (k : κ) :
    ∀ a, a ∈ (eraseD d k).map Prod.fst → a ∈ d.map Prod.fst := by
  induction d with
  | nil => intro a ha; simp [eraseD] at ha
  | cons p rest ih =>
    intro a ha
    by_cases hk : p.1 = k
    · rw [eraseD, if_pos hk] at ha
      rw [List.map_cons]
      exact List.mem_cons_of_mem _ ha
    · rw [eraseD, if_neg hk] at ha
      rcases List.mem_cons.mp ha with h1 | h1
      · rw [List.map_cons, h1]
        exact List.mem_cons_self _ _
      · rw [List.map_cons]
        exact List.mem_cons_of_mem _ (ih a h1)

theorem nodupKeys_eraseD {κ β : Type} [DecidableEq κ] (d : List (κ × β)) (k : κ)
    (hnd : (d.map Prod.fst).Nodup) : ((eraseD d k).map Prod.fst).Nodup := by
  induction d with
  | nil => simp [eraseD]
  | cons p rest ih =>
    rcases List.nodup_cons.mp hnd with ⟨hp, hrest⟩
    by_cases hk : p.1 = k
    · rw [eraseD, if_pos hk]; exact hrest
    · rw [eraseD, if_neg hk]
      rw [List.map_cons, List.nodup_cons]
      exact ⟨fun hmem => hp (eraseD_keys_sub rest k p.1 hmem), ih hrest⟩

/-- Inserting the same key/value twice in a row is a no-op the second time. -/
theorem insertD_insertD_same {κ β : Type} [DecidableEq κ] (d : List (κ × β)) (k : κ) (v : β) :
    insertD (insertD d k v) k v = insertD d k v := by
  induction d with
  | nil => simp [insertD]
  | cons p rest ih =>
    by_cases hk : p.1 = k
    · simp [insertD, hk]
    · simp [insertD, hk, ih]

theorem buildHashIndexAux_sound {κ : Type} [DecidableEq κ] (hashes : List κ)
    (d : List (κ × Nat)) (i : Nat) (h : κ) (j : Nat)
    (hl : lookupD (buildHashIndexAux d i hashes) h = some j) :
    lookupD d h = some j ∨
      (i ≤ j ∧ j - i < hashes.length ∧ hashes.get? (j - i) = some h) := by
  induction hashes generalizing d i with
  | nil => exact Or.inl hl
  | cons hh rest ih =>
    rw [buildHashIndexAux] at hl
    rcases ih (insertD d hh i) (i + 1) hl with h1 | h1
    · by_cases hhh : h = hh
      · subst hhh
        rw [lookupD_insertD_self] at h1
        have hji : j = i := by
          have := Option.some_inj.mp h1
          omega
        subst hji
        refine Or.inr ⟨le_refl _, ?_, ?_⟩
        · simp
        · simp
      · rw [lookupD_insertD_ne d hh h i (fun hh' => hhh hh')] at h1
        exact Or.inl h1
    · rcases h1 with ⟨hij, hlen, hget⟩
      refine Or.inr ⟨by omega, by simp; omega, ?_⟩
      have hsub : j - i = (j - (i + 1)) + 1 := by omega
      rw [hsub]
      simpa using hget

/-- Soundness of the identity→index map: a resolved index is in range and
its row carries exactly that identity. -/
theorem buildHashIndex_sound {κ : Type} [DecidableEq κ] (hashes : List κ) (h : κ) (j : Nat)
    (hl : lookupD (buildHashIndex hashes) h = some j) :
    j < hashes.length ∧ hashes.get? j = some h := by
  rcases buildHashIndexAux_sound hashes [] 0 h j hl with h1 | h1
  · simp [lookupD] at h1
  · simpa using h1

/-- Two distinct identities never resolve to the same row index. -/
theorem buildHashIndex_inj {κ : Type} [DecidableEq κ] (hashes : List κ) (h h' : κ) (j : Nat)
    (hl : lookupD (buildHashIndex hashes) h = some j)
    (hl' : lookupD (buildHashIndex hashes) h' = some j) : h = h' := by
  have s1 := (buildHashIndex_sound hashes h j hl).2
  have s2 := (buildHashIndex_sound hashes h' j hl').2
  rw [s1] at s2
  exact Option.some_inj.mp s2

/-! ## Helper lemmas -/

theorem lookupD_eq_none_of_not_mem_keys {κ β : Type} [DecidableEq κ] {d : List (κ × β)}
    {k : κ} (h : k ∉ d.map Prod.fst) : lookupD d k = none := by
  induction d with
  | nil => rfl
  | cons p rest ih =>
    by_cases hk : p.1 = k
    · exact absurd (by rw [List.map_cons, hk]; exact List.mem_cons_self _ _) h
    · have h' : k ∉ rest.map Prod.fst := fun hm =>
        h (by rw [List.map_cons]; exact List.mem_cons_of_mem _ hm)
      simpa [lookupD, hk] using ih h'

theorem lookupD_eraseD_self {κ β : Type} [DecidableEq κ] (d : List (κ × β)) (k : κ)
    (hnd : (d.map Prod.fst).Nodup) : lookupD (eraseD d k) k = none := by
  induction d with
  | nil => rfl
  | cons p rest ih =>
    rcases List.nodup_cons.mp hnd with ⟨hp, hrest⟩
    by_cases hk : p.1 = k
    · rw [eraseD, if_pos hk]
      exact lookupD_eq_none_of_not_mem_keys (by rw [← hk]; exact hp)
    · rw [eraseD, if_neg hk]
      simpa [lookupD, hk] using ih hrest

theorem foldl_preserve {α β : Type} (P : β → Prop) (f : β → α → β) (l : List α)
    (init : β) (h0 : P init) (hstep : ∀ b a, P b → P (f b a)) : P (l.foldl f init) := by
  induction l generalizing init with
  | nil => exact h0
  | cons a rest ih => exact ih (f init a) (hstep init a h0)

/-- `_get_display_data` either leaves the state alone or only fills the
display cache. -/
theorem _get_display_data_snd (st : PreviewTable) :
    (_get_display_data st).2 = st ∨
      ∃ d, (_get_display_data st).2 =
        { st with display_data_cache := some d, display_data_cache_valid := true } := by
  cases hdf : st.dataframe with
  | none =>
    simp only [_get_display_data, hdf]
    exact Or.inl trivial
  | some df =>
    simp only [_get_display_data, hdf]
    by_cases hc : st.display_data_cache_valid ∧ st.display_data_cache.isSome
    · rw [if_pos hc]
      exact Or.inl rfl
    · rw [if_neg hc]
      exact Or.inr ⟨_, rfl⟩

theorem _get_display_data_edits (st : PreviewTable) :
    ((_get_display_data st).2).edits = st.edits := by
  rcases _get_display_data_snd st with h | ⟨d, h⟩ <;> rw [h]

theorem _get_display_data_original_values (st : PreviewTable) :
    ((_get_display_data st).2).original_values = st.original_values := by
  rcases _get_display_data_snd st with h | ⟨d, h⟩ <;> rw [h]

theorem _get_display_data_edit_version (st : PreviewTable) :
    ((_get_display_data st).2).edit_version = st.edit_version := by
  rcases _get_display_data_snd st with h | ⟨d, h⟩ <;> rw [h]

theorem _get_display_data_sheet (st : PreviewTable) :
    ((_get_display_data st).2).current_sheet_name = st.current_sheet_name := by
  rcases _get_display_data_snd st with h | ⟨d, h⟩ <;> rw [h]

theorem _get_display_data_dataframe (st : PreviewTable) :
    ((_get_display_data st).2).dataframe = st.dataframe := by
  rcases _get_display_data_snd st with h | ⟨d, h⟩ <;> rw [h]

theorem _get_display_data_fst_isSome (st : PreviewTable) (df : DataFrame)
    (hdf : st.dataframe = some df) : ∃ d, (_get_display_data st).1 = some d := by
  simp only [_get_display_data, hdf]
  by_cases hc : st.display_data_cache_valid ∧ st.display_data_cache.isSome
  · rw [if_pos hc]
    obtain ⟨d, hd⟩ := Option.isSome_iff_exists.mp hc.2
    exact ⟨d, hd⟩
  · rw [if_neg hc]
    exact ⟨_, rfl⟩

theorem populate_cell_version (amb : Ambient) (st : PreviewTable) (display : DataFrame)
    (rowHash : String) (absIdx : Nat) (colName : String) :
    (populate_cell amb st display rowHash absIdx colName).edit_version = st.edit_version := by
  unfold populate_cell
  dsimp only
  repeat' split
  all_goals rfl

theorem populate_cell_edits (amb : Ambient) (st : PreviewTable) (display : DataFrame)
    (rowHash : String) (absIdx : Nat) (colName : String) :
    (populate_cell amb st display rowHash absIdx colName).edits = st.edits ∨
      ∃ k, (populate_cell amb st display rowHash absIdx colName).edits = eraseD st.edits k := by
  unfold populate_cell
  dsimp only
  repeat' split
  all_goals first
    | exact Or.inl rfl
    | exact Or.inr ⟨_, rfl⟩

theorem populate_page_version (amb : Ambient) (st : PreviewTable) (display : DataFrame)
    (startRow endRow : Nat) :
    (populate_page amb st display startRow endRow).edit_version = st.edit_version := by
  unfold populate_page
  refine foldl_preserve (fun (b : PreviewTable) => b.edit_version = st.edit_version) _ _ _ rfl ?_
  intro b r hb
  unfold populate_row
  refine foldl_preserve (fun (b2 : PreviewTable) => b2.edit_version = st.edit_version) _ _ _ hb ?_
  intro b2 c hb2
  rw [populate_cell_version]
  exact hb2

theorem populate_page_edits_nil (amb : Ambient) (st : PreviewTable) (display : DataFrame)
    (startRow endRow : Nat) (h : st.edits = []) :
    (populate_page amb st display startRow endRow).edits = [] := by
  unfold populate_page
  refine foldl_preserve (fun (b : PreviewTable) => b.edits = []) _ _ _ h ?_
  intro b r hb
  unfold populate_row
  refine foldl_preserve (fun (b2 : PreviewTable) => b2.edits = []) _ _ _ hb ?_
  intro b2 c hb2
  rcases populate_cell_edits amb b2 display _ _ c with h1 | ⟨k, h1⟩
  · rw [h1, hb2]
  · rw [h1, hb2]
    rfl

theorem _update_table_version (amb : Ambient) (st : PreviewTable) :
    (_update_table amb st).edit_version = st.edit_version := by
  unfold _update_table
  dsimp only
  split
  · exact _get_display_data_edit_version st
  · split
    · exact _get_display_data_edit_version st
    · rw [populate_page_version]
      exact _get_display_data_edit_version st

theorem _update_table_edits_nil (amb : Ambient) (st : PreviewTable) (h : st.edits = []) :
    (_update_table amb st).edits = [] := by
  unfold _update_table
  dsimp only
  have hst2 : ((_get_display_data st).2).edits = [] := by
    rw [_get_display_data_edits]; exact h
  split
  · exact hst2
  · split
    · exact hst2
    · exact populate_page_edits_nil amb _ _ _ _ hst2

/-! ## Claim theorems -/

/-- C10: for a non-empty display table and `rows_per_page ≥ 1`, the page
index is clamped into `[0, total_pages - 1]` (with `total_pages` the
ceiling of rows over page size), so the page window `[start_row, end_row)`
lies within the table's row bounds with `end_row ≥ start_row`. -/
theorem c10_page_window_in_bounds (current_page rows_per_page total_rows : Nat)
    (h1 : 0 < total_rows) (h2 : 1 ≤ rows_per_page) :
    (update_table_pagination current_page rows_per_page total_rows).1 + 1 ≤
      (total_rows + rows_per_page - 1) / rows_per_page ∧
    (update_table_pagination current_page rows_per_page total_rows).2.1 =
      (update_table_pagination current_page rows_per_page total_rows).1 * rows_per_page ∧
    (update_table_pagination current_page rows_per_page total_rows).2.1 ≤
      (update_table_pagination current_page rows_per_page total_rows).2.2 ∧
    (update_table_pagination current_page rows_per_page total_rows).2.2 ≤ total_rows ∧
    (update_table_pagination current_page rows_per_page total_rows).2.1 < total_rows := by
  unfold update_table_pagination
  dsimp only
  set tp := (total_rows + rows_per_page - 1) / rows_per_page with htp
  have htp1 : 1 ≤ tp := by
    rw [htp, Nat.le_div_iff_mul_le (by omega : 0 < rows_per_page)]
    omega
  have hmul : tp * rows_per_page ≤ total_rows + rows_per_page - 1 :=
    Nat.div_mul_le_self _ _
  have hpage : min current_page (max 0 (tp - 1)) ≤ tp - 1 := by
    have : max 0 (tp - 1) = tp - 1 := by omega
    rw [this]
    exact min_le_right _ _
  have hstart : min current_page (max 0 (tp - 1)) * rows_per_page ≤
      (tp - 1) * rows_per_page := Nat.mul_le_mul_right _ hpage
  have hsub : (tp - 1) * rows_per_page + rows_per_page = tp * rows_per_page := by
    have h3 : tp - 1 + 1 = tp := Nat.succ_pred_eq_of_pos htp1
    calc (tp - 1) * rows_per_page + rows_per_page
        = (tp - 1 + 1) * rows_per_page := by rw [Nat.add_mul, Nat.one_mul]
      _ = tp * rows_per_page := by rw [h3]
  generalize hA : min current_page (max 0 (tp - 1)) * rows_per_page = A at *
  generalize hB : (tp - 1) * rows_per_page = B at *
  generalize hC : tp * rows_per_page = C at *
  refine ⟨by omega, rfl, ?_, ?_, ?_⟩ <;> omega

/-- C10 witness: concrete instance with 5 rows, 2 rows per page and a page
index past the end. -/
theorem c10_page_window_in_bounds_witness :
    0 < 5 ∧ 1 ≤ 2 ∧
    ((update_table_pagination 9 2 5).1 + 1 ≤ (5 + 2 - 1) / 2 ∧
     (update_table_pagination 9 2 5).2.1 = (update_table_pagination 9 2 5).1 * 2 ∧
     (update_table_pagination 9 2 5).2.1 ≤ (update_table_pagination 9 2 5).2.2 ∧
     (update_table_pagination 9 2 5).2.2 ≤ 5 ∧
     (update_table_pagination 9 2 5).2.1 < 5) :=
  ⟨by decide, by decide, c10_page_window_in_bounds 9 2 5 (by decide) (by decide)⟩

theorem colNames_dropInternal (df : DataFrame) :
    colNames (dropInternal df) = (colNames df).filter (fun c => c ≠ "_row_hash") := by
  unfold dropInternal
  by_cases hmem : "_row_hash" ∈ colNames df
  · rw [if_pos hmem]
    show (df.cols.filter fun c => c.1 ≠ "_row_hash").map Prod.fst =
      (df.cols.map Prod.fst).filter (fun c => c ≠ "_row_hash")
    rw [List.filter_map]
    rfl
  · rw [if_neg hmem]
    refine (List.filter_eq_self.mpr ?_).symm
    intro a ha
    simp only [ne_eq, decide_eq_true_eq]
    intro heq
    rw [heq] at ha
    exact hmem ha

/-- C9: neither exporter output contains the internal row-identity column:
the headers are exactly the source's column names with `_row_hash` dropped,
and every written data row has one cell per remaining header. -/
theorem c9_exports_drop_row_identity (df : DataFrame) :
    "_row_hash" ∉ (ExcelExporter.export df).headers ∧
    (ExcelExporter.export df).headers = (colNames df).filter (fun c => c ≠ "_row_hash") ∧
    (∀ row ∈ (ExcelExporter.export df).rows,
       row.length = (ExcelExporter.export df).headers.length) ∧
    "_row_hash" ∉ (ExcelExporter.export_to_csv df).headers ∧
    (ExcelExporter.export_to_csv df).headers =
      (colNames df).filter (fun c => c ≠ "_row_hash") ∧
    (∀ row ∈ (ExcelExporter.export_to_csv df).rows,
       row.length = (ExcelExporter.export_to_csv df).headers.length) := by
  have hh : colNames (dropInternal df) = (colNames df).filter (fun c => c ≠ "_row_hash") :=
    colNames_dropInternal df
  have hnot : "_row_hash" ∉ colNames (dropInternal df) := by
    rw [hh]
    intro hmem
    rcases List.mem_filter.mp hmem with ⟨-, hdec⟩
    simp at hdec
  have hrows : ∀ row ∈ (ExcelExporter.export df).rows,
      row.length = (ExcelExporter.export df).headers.length := by
    intro row hrow
    unfold ExcelExporter.export at hrow ⊢
    dsimp only at hrow ⊢
    rcases List.mem_map.mp hrow with ⟨i, -, hi⟩
    rw [← hi, List.length_map]
    simp [colNames]
  refine ⟨?_, ?_, hrows, ?_, ?_, ?_⟩
  · exact hnot
  · exact hh
  · exact hnot
  · exact hh
  · intro row hrow
    unfold ExcelExporter.export_to_csv at hrow ⊢
    dsimp only at hrow ⊢
    rcases List.mem_map.mp hrow with ⟨i, -, hi⟩
    rw [← hi, List.length_map]
    simp [colNames]

/-- C8 (code evaluated at its failing input): the sanitizer is NOT
idempotent. On the string "a \n " (trailing-whitespace run after a final
newline-space pair) the first pass removes only the run at the very end of
the string, leaving "a \n"; the second pass — because the regex anchor
also matches just before a string-final newline — removes the space before
the newline, giving "a\n". NFC is the identity on these ASCII strings, so
the ambient normalizer is instantiated with `id`. -/
theorem c8_sanitize_not_idempotent :
    _sanitize_cell_value id (Value.vStr "a \n ") = "a \n" ∧
    _sanitize_cell_value id (Value.vStr (_sanitize_cell_value id (Value.vStr "a \n "))) = "a\n" ∧
    _sanitize_cell_value id (Value.vStr (_sanitize_cell_value id (Value.vStr "a \n "))) ≠
      _sanitize_cell_value id (Value.vStr "a \n ") := by
  refine ⟨?_, ?_, ?_⟩ <;> decide

/-- C4 counterexample: a boolean original cell with edit text "yes". The
claim's truthy-string heuristic would give `True`, but Python's
`isinstance(original, int)` is true for booleans, so the code takes the
int branch, `int("yes")` fails, and the raw text is stored. -/
theorem c4_counterexample :
    coerce_edit (Value.vBool true) "yes" = Value.vStr "yes" ∧
    coerce_edit (Value.vBool true) "yes" ≠ Value.vBool true := by
  refine ⟨?_, ?_⟩ <;> decide

/-- C4 as amended: export coercion dispatches on the original element type
with booleans treated as integers (Python's `isinstance` subtyping): int or
bool original → int parse, null if blank, raw text on failure; float
original → float parse, null if blank, raw text on failure; anything else
keeps the text as-is; the operation is total and never drops the edit. -/
theorem c4_coercion_amended (original : Value) (t : String) :
    coerce_edit original t = coerceSpecAmended original t := by
  cases original with
  | vInt n =>
    by_cases hb : pyStrip t = ""
    · simp [coerce_edit, coerceSpecAmended, pyIsInstInt, hb]
    · have ht : t ≠ "" := by
        intro h0
        rw [h0] at hb
        exact hb rfl
      simp [coerce_edit, coerceSpecAmended, pyIsInstInt, hb, ht]
  | vBool b =>
    by_cases hb : pyStrip t = ""
    · simp [coerce_edit, coerceSpecAmended, pyIsInstInt, hb]
    · have ht : t ≠ "" := by
        intro h0
        rw [h0] at hb
        exact hb rfl
      simp [coerce_edit, coerceSpecAmended, pyIsInstInt, hb, ht]
  | vFloat q =>
    by_cases hb : pyStrip t = ""
    · simp [coerce_edit, coerceSpecAmended, pyIsInstInt, pyIsInstFloat, hb]
    · have ht : t ≠ "" := by
        intro h0
        rw [h0] at hb
        exact hb rfl
      simp [coerce_edit, coerceSpecAmended, pyIsInstInt, pyIsInstFloat, hb, ht]
  | vNone =>
    simp [coerce_edit, coerceSpecAmended, pyIsInstInt, pyIsInstFloat, pyIsInstBool]
  | vStr s =>
    simp [coerce_edit, coerceSpecAmended, pyIsInstInt, pyIsInstFloat, pyIsInstBool]

/-- C3 (code evaluated at its failing input): recording an edit in the
current sort column does NOT invalidate the display cache. In `c3St` the
cache holds the frame sorted by the sort column `A`; after editing the
first row's `A` cell to "5" the cache is still flagged valid and unchanged,
`_get_display_data` keeps serving the stale order, while a recomputation
from the invalidated state would re-sort with the overlay value and give a
different row order. -/
theorem c3_edit_in_sort_column_keeps_stale_cache :
    (_on_item_changed amb0 c3St "h1" "A" "5" (Value.vInt 1)).display_data_cache_valid = true ∧
    (_on_item_changed amb0 c3St "h1" "A" "5" (Value.vInt 1)).display_data_cache = some c3Df ∧
    lookupD (_on_item_changed amb0 c3St "h1" "A" "5" (Value.vInt 1)).edits
      ("Sheet1", "h1", "A") = some "5" ∧
    (_get_display_data (_on_item_changed amb0 c3St "h1" "A" "5" (Value.vInt 1))).1 =
      some c3Df ∧
    (_get_display_data
      { _on_item_changed amb0 c3St "h1" "A" "5" (Value.vInt 1) with
        display_data_cache_valid := false }).1 ≠ some c3Df := by
  refine ⟨?_, ?_, ?_, ?_, ?_⟩ <;> decide

/-- C5 counterexample: `clear_edits` does not reset the edit version
counter — on a state with edit version 5 it stays 5, not 0. -/
theorem c5_counterexample : (clear_edits amb0 c5St).edit_version ≠ 0 := by decide

/-- C5 as amended: `clear_edits` erases the overlay and snapshot maps
entirely — the resulting state is independent of their previous contents
(the snapshot map is immediately re-seeded from the displayed page by the
refresh the method triggers), the overlay ends empty — but the edit
version counter is left unchanged rather than being reset to 0. -/
theorem c5_clear_edits_amended (amb : Ambient) (st : PreviewTable)
    (ed ov : List (EditKey × String)) :
    clear_edits amb { st with edits := ed, original_values := ov } = clear_edits amb st ∧
    (clear_edits amb st).edits = [] ∧
    (clear_edits amb st).edit_version = st.edit_version := by
  refine ⟨rfl, ?_, ?_⟩
  · unfold clear_edits
    exact _update_table_edits_nil amb _ rfl
  · unfold clear_edits
    rw [_update_table_version]

/-- Characterization of `_on_item_changed` on a state with a loaded frame:
the overlay entry for the resolved key is deleted when the new text equals
the resolved original and upserted otherwise; the snapshot is seeded only
when missing; the version bumps exactly on the store path; sheet name and
frame are untouched. -/
theorem _on_item_changed_spec (amb : Ambient) (st : PreviewTable)
    (rowHash colName new_value : String) (pageVal : Value) (df : DataFrame)
    (hdf : st.dataframe = some df) :
    (_on_item_changed amb st rowHash colName new_value pageVal).edits =
      (if new_value = resolvedOriginal amb st rowHash colName pageVal
       then eraseD st.edits (st.current_sheet_name, rowHash, colName)
       else insertD st.edits (st.current_sheet_name, rowHash, colName) new_value) ∧
    (_on_item_changed amb st rowHash colName new_value pageVal).original_values =
      (if (lookupD st.original_values (st.current_sheet_name, rowHash, colName)).isSome
       then st.original_values
       else insertD st.original_values (st.current_sheet_name, rowHash, colName)
         (_sanitize_cell_value amb.nfcFn pageVal)) ∧
    (_on_item_changed amb st rowHash colName new_value pageVal).edit_version =
      (if new_value = resolvedOriginal amb st rowHash colName pageVal
       then st.edit_version else st.edit_version + 1) ∧
    (_on_item_changed amb st rowHash colName new_value pageVal).current_sheet_name =
      st.current_sheet_name ∧
    (_on_item_changed amb st rowHash colName new_value pageVal).dataframe =
      st.dataframe := by
  obtain ⟨d, hd⟩ := _get_display_data_fst_isSome st df hdf
  have hsheet := _get_display_data_sheet st
  have hov := _get_display_data_original_values st
  have hedits := _get_display_data_edits st
  have hver := _get_display_data_edit_version st
  have hframe := _get_display_data_dataframe st
  unfold _on_item_changed
  rw [hdf]
  dsimp only
  rw [hd]
  dsimp only
  rw [hsheet, hov]
  unfold resolvedOriginal
  cases ho : lookupD st.original_values (st.current_sheet_name, rowHash, colName) with
  | some o =>
    by_cases he : new_value = o <;>
      refine ⟨?_, ?_, ?_, ?_, ?_⟩ <;>
        simp [he, hedits, hov, hver, hsheet, hframe, hdf]
  | none =>
    by_cases he : new_value = _sanitize_cell_value amb.nfcFn pageVal <;>
      refine ⟨?_, ?_, ?_, ?_, ?_⟩ <;>
        simp [he, hedits, hov, hver, hsheet, hframe, hdf]

/-- C2: recording an edit whose text equals the resolved original value for
its key leaves no overlay entry for that key (auto-revert), whether or not
an entry existed before; and `_on_item_changed` preserves the invariant
that an entry exists only while its value differs from the recorded
original value for its key. -/
theorem c2_overlay_auto_revert (amb : Ambient) (st : PreviewTable)
    (rowHash colName new_value : String) (pageVal : Value) (df : DataFrame)
    (hdf : st.dataframe = some df)
    (hnd : (st.edits.map Prod.fst).Nodup) :
    (new_value = resolvedOriginal amb st rowHash colName pageVal →
      lookupD (_on_item_changed amb st rowHash colName new_value pageVal).edits
        (st.current_sheet_name, rowHash, colName) = none) ∧
    (OverlayInvariant st →
      OverlayInvariant (_on_item_changed amb st rowHash colName new_value pageVal)) := by
  obtain ⟨hedits, hov, hver, hsheet, hframe⟩ :=
    _on_item_changed_spec amb st rowHash colName new_value pageVal df hdf
  constructor
  · intro he
    rw [hedits, if_pos he]
    exact lookupD_eraseD_self _ _ hnd
  · intro hinv
    intro k v o hkv hko
    rw [hedits] at hkv
    rw [hov] at hko
    by_cases hkey : k = (st.current_sheet_name, rowHash, colName)
    · subst hkey
      by_cases he : new_value = resolvedOriginal amb st rowHash colName pageVal
      · rw [if_pos he] at hkv
        rw [lookupD_eraseD_self _ _ hnd] at hkv
        exact absurd hkv (by simp)
      · rw [if_neg he] at hkv
        rw [lookupD_insertD_self] at hkv
        have hv : v = new_value := (Option.some_inj.mp hkv).symm
        subst hv
        cases hos : lookupD st.original_values (st.current_sheet_name, rowHash, colName) with
        | some o0 =>
          rw [if_pos (by rw [hos]; rfl)] at hko
          rw [hos] at hko
          have ho0 : o = o0 := (Option.some_inj.mp hko).symm
          subst ho0
          intro hcontra
          apply he
          unfold resolvedOriginal
          rw [hos, hcontra]
          rfl
        | none =>
          rw [if_neg (by rw [hos]; simp)] at hko
          rw [lookupD_insertD_self] at hko
          have ho0 : o = _sanitize_cell_value amb.nfcFn pageVal :=
            (Option.some_inj.mp hko).symm
          subst ho0
          intro hcontra
          apply he
          unfold resolvedOriginal
          rw [hos, hcontra]
          rfl
    · have hkv' : lookupD st.edits k = some v := by
        by_cases he : new_value = resolvedOriginal amb st rowHash colName pageVal
        · rw [if_pos he] at hkv
          rw [lookupD_eraseD_ne _ _ _ hkey] at hkv
          exact hkv
        · rw [if_neg he] at hkv
          rw [lookupD_insertD_ne _ _ _ _ hkey] at hkv
          exact hkv
      have hko' : lookupD st.original_values k = some o := by
        by_cases hos : (lookupD st.original_values (st.current_sheet_name, rowHash, colName)).isSome
        · rw [if_pos hos] at hko
          exact hko
        · rw [if_neg hos] at hko
          rw [lookupD_insertD_ne _ _ _ _ hkey] at hko
          exact hko
      exact hinv k v o hkv' hko'

/-- C2 witness: in `c2St` the key ("Sheet1","h1","A") has original "1" and
a pending edit "x"; recording the text "1" removes the entry. -/
theorem c2_overlay_auto_revert_witness :
    lookupD (_on_item_changed amb0 c2St "h1" "A" "1" (Value.vInt 1)).edits
      ("Sheet1", "h1", "A") = none :=
  (c2_overlay_auto_revert amb0 c2St "h1" "A" "1" (Value.vInt 1) c2Df rfl
    (by decide)).1 (by decide)

/-- C6: when the recorded text differs from the resolved original, the edit
version counter increases by exactly 1; re-recording the same text for the
same cell increments it again (to +2) even though the overlay map itself is
unchanged after the first write. -/
theorem c6_edit_version_double_increment (amb : Ambient) (st : PreviewTable)
    (rowHash colName new_value : String) (pageVal : Value) (df : DataFrame)
    (hdf : st.dataframe = some df)
    (hne : new_value ≠ resolvedOriginal amb st rowHash colName pageVal) :
    (_on_item_changed amb st rowHash colName new_value pageVal).edit_version =
      st.edit_version + 1 ∧
    (_on_item_changed amb (_on_item_changed amb st rowHash colName new_value pageVal)
        rowHash colName new_value pageVal).edit_version = st.edit_version + 2 ∧
    (_on_item_changed amb (_on_item_changed amb st rowHash colName new_value pageVal)
        rowHash colName new_value pageVal).edits =
      (_on_item_changed amb st rowHash colName new_value pageVal).edits := by
  obtain ⟨hedits, hov, hver, hsheet, hframe⟩ :=
    _on_item_changed_spec amb st rowHash colName new_value pageVal df hdf
  have hdf1 : (_on_item_changed amb st rowHash colName new_value pageVal).dataframe =
      some df := hframe.trans hdf
  set st1 := _on_item_changed amb st rowHash colName new_value pageVal with hst1
  have hres1 : resolvedOriginal amb st1 rowHash colName pageVal =
      resolvedOriginal amb st rowHash colName pageVal := by
    unfold resolvedOriginal
    rw [hsheet, hov]
    cases hos : lookupD st.original_values (st.current_sheet_name, rowHash, colName) with
    | some o =>
      rw [if_pos (by rfl), hos]
    | none =>
      rw [if_neg (by simp), lookupD_insertD_self]
      rfl
  obtain ⟨hedits2, hov2, hver2, hsheet2, hframe2⟩ :=
    _on_item_changed_spec amb st1 rowHash colName new_value pageVal df hdf1
  have hne1 : new_value ≠ resolvedOriginal amb st1 rowHash colName pageVal := by
    rw [hres1]; exact hne
  refine ⟨?_, ?_, ?_⟩
  · rw [hver, if_neg hne]
  · rw [hver2, if_neg hne1, hver, if_neg hne]
  · rw [hedits2, if_neg hne1, hsheet, hedits, if_neg hne]
    exact insertD_insertD_same _ _ _

/-- C6 witness: editing `c6St`'s first-row `A` cell (original "1") to "7"
twice bumps the version from 0 to 1 and then to 2 with the overlay map
unchanged by the second write. -/
theorem c6_edit_version_double_increment_witness :
    (_on_item_changed amb0 c6St "h1" "A" "7" (Value.vInt 1)).edit_version =
      c6St.edit_version + 1 ∧
    (_on_item_changed amb0 (_on_item_changed amb0 c6St "h1" "A" "7" (Value.vInt 1))
        "h1" "A" "7" (Value.vInt 1)).edit_version = c6St.edit_version + 2 ∧
    (_on_item_changed amb0 (_on_item_changed amb0 c6St "h1" "A" "7" (Value.vInt 1))
        "h1" "A" "7" (Value.vInt 1)).edits =
      (_on_item_changed amb0 c6St "h1" "A" "7" (Value.vInt 1)).edits :=
  c6_edit_version_double_increment amb0 c6St "h1" "A" "7" (Value.vInt 1) c6Df rfl
    (by decide)

theorem filterMap_filter_isSome {α β : Type} (f : α → Option β) (l : List α) :
    (l.filter (fun a => (f a).isSome)).filterMap f = l.filterMap f := by
  induction l with
  | nil => rfl
  | cons a rest ih =>
    cases hf : f a with
    | none => simp [List.filter_cons, List.filterMap_cons, hf, ih]
    | some b => simp [List.filter_cons, List.filterMap_cons, hf, ih]

/-- C7: a rule that fails to build (unknown column, unknown operator, or an
unparseable numeric bound) is skipped: filtering gives the same result as
filtering with only the buildable rules, and when no rule is buildable the
result is the full original table rather than an error. -/
theorem c7_unbuildable_rules_skipped (eng : FilterEngine) (logic : String) :
    (apply_filters eng logic =
      apply_filters
        { eng with applied_filters :=
            (eng.applied_filters.filter
              (fun r => (_build_filter_expression eng r).isSome)) } logic) ∧
    ((∀ r ∈ eng.applied_filters, _build_filter_expression eng r = none) →
      apply_filters eng logic = eng.dataframe) ∧
    (∀ r : FilterRule, r.column ∉ colNames eng.dataframe →
      _build_filter_expression eng r = none) ∧
    (∀ r : FilterRule,
      r.operator ∉ (["equals", "not_equals", "contains", "not_contains",
        "starts_with", "ends_with", "regex", "gt", "lt", "gte", "lte",
        "between", "not_null", "is_null"] : List String) →
      _build_filter_expression eng r = none) ∧
    (∀ r : FilterRule, r.operator = "gt" → pyFloat r.value = none →
      pyInt r.value = none → _build_filter_expression eng r = none) := by
  have hbuild : ∀ r, _build_filter_expression
      { eng with applied_filters :=
          (eng.applied_filters.filter
            (fun r => (_build_filter_expression eng r).isSome)) } r =
      _build_filter_expression eng r := fun r => rfl
  refine ⟨?_, ?_, ?_, ?_, ?_⟩
  · unfold apply_filters
    simp only [hbuild]
    by_cases hE : eng.applied_filters = []
    · rw [hE]
      rfl
    · rw [if_neg (by simp [hE])]
      rw [filterMap_filter_isSome]
      by_cases hF : eng.applied_filters.filter
          (fun r => (_build_filter_expression eng r).isSome) = []
      · rw [if_pos (by simp [hF])]
        have hnil : eng.applied_filters.filterMap
            (fun r => _build_filter_expression eng r) = [] := by
          rw [← filterMap_filter_isSome, hF]
          rfl
        rw [hnil]
      · rw [if_neg (by simp [hF])]
  · intro hall
    unfold apply_filters
    by_cases hE : eng.applied_filters = []
    · rw [hE]
      rfl
    · rw [if_neg (by simp [hE])]
      have hnil : eng.applied_filters.filterMap
          (fun r => _build_filter_expression eng r) = [] := by
        rw [List.filterMap_eq_nil_iff]
        exact hall
      rw [hnil]
  · intro r h1
    simp [_build_filter_expression, h1]
  · intro r h2
    simp only [List.mem_cons, List.not_mem_nil, or_false, not_or] at h2
    obtain ⟨e1, e2, e3, e4, e5, e6, e7, e8, e9, e10, e11, e12, e13, e14⟩ := h2
    by_cases hcol : r.column ∈ colNames eng.dataframe
    · simp [_build_filter_expression, hcol, e1, e2, e3, e4, e5, e6, e7, e8,
        e9, e10, e11, e12, e13, e14]
    · simp [_build_filter_expression, hcol]
  · intro r hop hf hi
    by_cases hcol : r.column ∈ colNames eng.dataframe
    · simp [_build_filter_expression, hcol, hop, hf, hi]
    · simp [_build_filter_expression, hcol]

/-- C7 witness: a single rule with the unknown operator "frobnicate" is
skipped, and with zero buildable rules `apply_filters` returns the full
original table. -/
theorem c7_unbuildable_rules_skipped_witness :
    apply_filters c7Eng "AND" = c7Eng.dataframe :=
  (c7_unbuildable_rules_skipped c7Eng "AND").2.1 (by decide)

theorem get?_set_self {α : Type} (l : List α) (i : Nat) (a : α) (h : i < l.length) :
    (l.set i a).get? i = some a := by
  induction l generalizing i with
  | nil => simp at h
  | cons b rest ih =>
    cases i with
    | zero => rfl
    | succ n =>
      simp only [List.set, List.get?]
      exact ih n (by simpa using h)

theorem get?_set_ne {α : Type} (l : List α) (i j : Nat) (a : α) (h : i ≠ j) :
    (l.set i a).get? j = l.get? j := by
  induction l generalizing i j with
  | nil => rfl
  | cons b rest ih =>
    cases i with
    | zero =>
      cases j with
      | zero => exact absurd rfl h
      | succ m => rfl
    | succ n =>
      cases j with
      | zero => rfl
      | succ m =>
        simp only [List.set, List.get?]
        exact ih n m (fun hh => h (by rw [hh]))

theorem lookupD_of_mem_nodup {κ β : Type} [DecidableEq κ] {d : List (κ × β)} {k : κ}
    {v : β} (hmem : (k, v) ∈ d) (hnd : (d.map Prod.fst).Nodup) :
    lookupD d k = some v := by
  induction d with
  | nil => simp at hmem
  | cons p rest ih =>
    rcases List.nodup_cons.mp hnd with ⟨hp, hrest⟩
    rcases List.mem_cons.mp hmem with h1 | h1
    · rw [← h1]
      simp [lookupD]
    · have hk : k ∈ rest.map Prod.fst := List.mem_map.mpr ⟨(k, v), h1, rfl⟩
      have hne : ¬ (p.1 = k) := fun hh => hp (hh ▸ hk)
      simp only [lookupD, hne, if_false]
      exact ih h1 hrest

theorem mem_insertD {κ β : Type} [DecidableEq κ] {d : List (κ × β)} {k : κ} {v : β}
    {q : κ × β} (hq : q ∈ insertD d k v) : q ∈ d ∨ q = (k, v) := by
  induction d with
  | nil =>
    simp [insertD] at hq
    exact Or.inr hq
  | cons p rest ih =>
    by_cases hk : p.1 = k
    · rw [insertD, if_pos hk] at hq
      rcases List.mem_cons.mp hq with h1 | h1
      · exact Or.inr h1
      · exact Or.inl (List.mem_cons_of_mem _ h1)
    · rw [insertD, if_neg hk] at hq
      rcases List.mem_cons.mp hq with h1 | h1
      · exact Or.inl (h1 ▸ List.mem_cons_self _ _)
      · rcases ih h1 with h2 | h2
        · exact Or.inl (List.mem_cons_of_mem _ h2)
        · exact Or.inr h2

theorem foldl_preserve_mem {α β : Type} (P : β → Prop) (f : β → α → β) (l : List α)
    (init : β) (h0 : P init) (hstep : ∀ b a, a ∈ l → P b → P (f b a)) :
    P (l.foldl f init) := by
  induction l generalizing init with
  | nil => exact h0
  | cons a rest ih =>
    exact ih (f init a) (hstep init a (List.mem_cons_self _ _) h0)
      (fun b a2 ha2 hb => hstep b a2 (List.mem_cons_of_mem _ ha2) hb)

theorem lookupD_map_replace_self {κ β : Type} [DecidableEq κ] (d : List (κ × β))
    (k : κ) (v : β) (hmem : k ∈ d.map Prod.fst) :
    lookupD (d.map (fun p => if p.1 = k then (k, v) else p)) k = some v := by
  induction d with
  | nil => simp at hmem
  | cons p rest ih =>
    by_cases hk : p.1 = k
    · simp [lookupD, hk]
    · have hmem' : k ∈ rest.map Prod.fst := by
        rw [List.map_cons] at hmem
        rcases List.mem_cons.mp hmem with h1 | h1
        · exact absurd h1.symm hk
        · exact h1
      simpa [lookupD, hk] using ih hmem'

theorem lookupD_map_replace_ne {κ β : Type} [DecidableEq κ] (d : List (κ × β))
    (k k' : κ) (v : β) (h : k' ≠ k) :
    lookupD (d.map (fun p => if p.1 = k then (k, v) else p)) k' = lookupD d k' := by
  have hkk : ¬ (k = k') := fun hh => h hh.symm
  induction d with
  | nil => rfl
  | cons p rest ih =>
    by_cases hk : p.1 = k
    · have hp : ¬ (p.1 = k') := by rw [hk]; exact hkk
      simp [lookupD, hk, hkk, hp, ih]
    · by_cases hk' : p.1 = k'
      · simp [lookupD, hk, hk', hkk, h]
      · simp [lookupD, hk, hk', ih]

/-! ### Lemmas about applying a column's resolved edits -/

theorem applyColEdits_length (col_data : List Value) (l : List (Nat × String)) :
    (applyColEdits col_data l).length = col_data.length := by
  unfold applyColEdits
  refine foldl_preserve (fun (arr : List Value) => arr.length = col_data.length) _ _ _ rfl ?_
  intro arr p h
  rw [List.length_set]
  exact h

theorem applyColEdits_get_of_not_mem (col_data : List Value) (l : List (Nat × String))
    (j : Nat) (hj : ∀ p ∈ l, p.1 ≠ j) :
    (applyColEdits col_data l).get? j = col_data.get? j := by
  unfold applyColEdits
  induction l generalizing col_data with
  | nil => rfl
  | cons p rest ih =>
    rw [List.foldl_cons]
    rw [ih _ (fun q hq => hj q (List.mem_cons_of_mem _ hq))]
    exact get?_set_ne _ _ _ _ (hj p (List.mem_cons_self _ _))

theorem applyColEdits_get_of_mem (col_data : List Value) (l1 l2 : List (Nat × String))
    (j : Nat) (w : String) (hj : j < col_data.length)
    (h1 : ∀ p ∈ l1, p.1 ≠ j) (h2 : ∀ p ∈ l2, p.1 ≠ j) :
    (applyColEdits col_data (l1 ++ (j, w) :: l2)).get? j =
      some (coerce_edit (col_data.getD j Value.vNone) w) := by
  have hA_frame : (applyColEdits col_data l1).get? j = col_data.get? j :=
    applyColEdits_get_of_not_mem col_data l1 j h1
  have hA_len : (applyColEdits col_data l1).length = col_data.length :=
    applyColEdits_length col_data l1
  have happ : applyColEdits col_data (l1 ++ (j, w) :: l2) =
      applyColEdits
        ((applyColEdits col_data l1).set j
          (coerce_edit ((applyColEdits col_data l1).getD j Value.vNone) w)) l2 := by
    unfold applyColEdits
    rw [List.foldl_append, List.foldl_cons]
  rw [happ]
  rw [applyColEdits_get_of_not_mem _ l2 j h2]
  have hgetD : (applyColEdits col_data l1).getD j Value.vNone =
      col_data.getD j Value.vNone := by
    rw [List.getD_eq_getD_get?, List.getD_eq_getD_get?, hA_frame]
  rw [hgetD]
  exact get?_set_self _ _ _ (by rw [hA_len]; exact hj)

/-! ### Lemmas about the per-column edit dict -/

theorem buildColEdits_nodupKeys (st : PreviewTable) (hashIdx : List (Value × Nat))
    (col_name : String) :
    ((buildColEdits st hashIdx col_name).map Prod.fst).Nodup := by
  unfold buildColEdits
  refine foldl_preserve
    (fun (d : List (Nat × String)) => (d.map Prod.fst).Nodup) _ _ _ (by simp) ?_
  intro d p h
  unfold colEditStep
  split
  · split
    · exact nodupKeys_insertD _ _ _ h
    · exact h
  · exact h

theorem buildColEdits_mem (st : PreviewTable) (hashIdx : List (Value × Nat))
    (col_name : String) (j : Nat) (w : String)
    (hmem : (j, w) ∈ buildColEdits st hashIdx col_name) :
    ∃ h v, ((st.current_sheet_name, h, col_name), v) ∈ st.edits ∧
      lookupD hashIdx (Value.vStr h) = some j := by
  unfold buildColEdits at hmem
  have hP : ∀ q ∈ st.edits.foldl (colEditStep st.current_sheet_name hashIdx col_name)
      ([] : List (Nat × String)), ∃ h v,
      ((st.current_sheet_name, h, col_name), v) ∈ st.edits ∧
      lookupD hashIdx (Value.vStr h) = some q.1 := by
    refine foldl_preserve_mem
      (fun (d : List (Nat × String)) => ∀ q ∈ d, ∃ h v,
        ((st.current_sheet_name, h, col_name), v) ∈ st.edits ∧
        lookupD hashIdx (Value.vStr h) = some q.1) _ _ _ (by simp) ?_
    intro d p hp hd
    unfold colEditStep
    split
    · rename_i hcond
      cases hres : lookupD hashIdx (Value.vStr p.1.2.1) with
      | none => exact hd
      | some idx =>
        intro q hq
        rcases mem_insertD hq with h1 | h1
        · exact hd q h1
        · refine ⟨p.1.2.1, p.2, ?_, ?_⟩
          · have hpk : p.1 = (st.current_sheet_name, p.1.2.1, col_name) := by
              rcases p with ⟨⟨s, hsh, c⟩, v⟩
              rcases hcond with ⟨hc1, hc2⟩
              simp at hc1 hc2
              rw [hc1, hc2]
            rw [← hpk]
            exact hp
          · rw [hres, h1]
    · exact hd
  exact hP (j, w) hmem

theorem buildColEdits_foldl_frame (sheet : String) (hashIdx : List (Value × Nat))
    (col_name : String) (l : List (EditKey × String)) (d : List (Nat × String)) (j : Nat)
    (hno : ∀ p ∈ l, p.1.1 = sheet → p.1.2.2 = col_name →
      lookupD hashIdx (Value.vStr p.1.2.1) ≠ some j) :
    lookupD (l.foldl (colEditStep sheet hashIdx col_name) d) j = lookupD d j := by
  induction l generalizing d with
  | nil => rfl
  | cons p rest ih =>
    rw [List.foldl_cons]
    rw [ih _ (fun q hq => hno q (List.mem_cons_of_mem _ hq))]
    unfold colEditStep
    split
    · rename_i hcond
      cases hres : lookupD hashIdx (Value.vStr p.1.2.1) with
      | none => rfl
      | some idx =>
        have hne : idx ≠ j := by
          intro hidx
          exact hno p (List.mem_cons_self _ _) hcond.1 hcond.2 (by rw [hres, hidx])
        exact lookupD_insertD_ne _ _ _ _ (fun hh => hne hh.symm)
    · rfl

theorem buildColEdits_lookup_hit (sheet : String) (hashIdx : List (Value × Nat))
    (col_name : String) (l1 l2 : List (EditKey × String)) (h : String) (v : String)
    (j : Nat) (d : List (Nat × String))
    (hres : lookupD hashIdx (Value.vStr h) = some j)
    (hno2 : ∀ p ∈ l2, p.1.1 = sheet → p.1.2.2 = col_name →
      lookupD hashIdx (Value.vStr p.1.2.1) ≠ some j) :
    lookupD ((l1 ++ ((sheet, h, col_name), v) :: l2).foldl
      (colEditStep sheet hashIdx col_name) d) j = some v := by
  rw [List.foldl_append, List.foldl_cons]
  rw [buildColEdits_foldl_frame sheet hashIdx col_name l2 _ j hno2]
  unfold colEditStep
  rw [if_pos ⟨rfl, rfl⟩]
  dsimp only
  rw [hres]
  exact lookupD_insertD_self _ _ _

/-! ### Lemmas about the per-frame column loop -/

theorem getCol_replaceColumn_self (df : DataFrame) (name : String) (vals : List Value)
    (hmem : name ∈ colNames df) :
    getCol (replaceColumn df name vals) name = some vals := by
  unfold replaceColumn
  rw [if_pos hmem]
  exact lookupD_map_replace_self df.cols name vals hmem

theorem getCol_replaceColumn_ne (df : DataFrame) (name : String) (vals : List Value)
    (m : String) (h : m ≠ name) :
    getCol (replaceColumn df name vals) m = getCol df m := by
  unfold replaceColumn
  by_cases hmem : name ∈ colNames df
  · rw [if_pos hmem]
    exact lookupD_map_replace_ne df.cols name m vals h
  · rw [if_neg hmem]
    show lookupD (df.cols ++ [(name, vals)]) m = lookupD df.cols m
    rw [lookupD_append]
    have hone : lookupD [(name, vals)] m = none := by
      have hnm : ¬ (name = m) := fun hh => h hh.symm
      simp [lookupD, hnm]
    rw [hone]
    cases lookupD df.cols m <;> rfl

theorem colNames_replaceColumn (df : DataFrame) (name : String) (vals : List Value)
    (hmem : name ∈ colNames df) :
    colNames (replaceColumn df name vals) = colNames df := by
  unfold replaceColumn
  rw [if_pos hmem]
  show (df.cols.map fun p => if p.1 = name then (name, vals) else p).map Prod.fst =
    df.cols.map Prod.fst
  rw [List.map_map]
  apply List.map_congr_left
  intro p hp
  by_cases hk : p.1 = name <;> simp [hk]

theorem frameEditStep_colNames (st : PreviewTable) (hashIdx : List (Value × Nat))
    (source_df : DataFrame) (acc : DataFrame) (n : String)
    (hmem : n ∈ colNames acc) :
    colNames (frameEditStep st hashIdx source_df acc n) = colNames acc := by
  unfold frameEditStep
  dsimp only
  split
  · rfl
  · split
    · rfl
    · exact colNames_replaceColumn acc n _ hmem

theorem frameEdit_foldl_getCol (st : PreviewTable) (hashIdx : List (Value × Nat))
    (source_df : DataFrame) (ns : List String) (acc : DataFrame)
    (hnames : colNames acc = colNames source_df)
    (hsub : ∀ n ∈ ns, n ∈ colNames source_df)
    (hnd : ns.Nodup) :
    (∀ m, getCol (ns.foldl (frameEditStep st hashIdx source_df) acc) m =
      (if m ∈ ns ∧ m ≠ "_row_hash" ∧ buildColEdits st hashIdx m ≠ [] then
        some (applyColEdits ((getCol source_df m).getD []) (buildColEdits st hashIdx m))
      else getCol acc m)) ∧
    colNames (ns.foldl (frameEditStep st hashIdx source_df) acc) = colNames source_df := by
  induction ns generalizing acc with
  | nil =>
    refine ⟨fun m => ?_, hnames⟩
    rw [if_neg (by simp)]
    rfl
  | cons n rest ih =>
    have hnacc : n ∈ colNames acc := by
      rw [hnames]
      exact hsub n (List.mem_cons_self _ _)
    have hstep_names : colNames (frameEditStep st hashIdx source_df acc n) =
        colNames source_df :=
      (frameEditStep_colNames st hashIdx source_df acc n hnacc).trans hnames
    obtain ⟨ihget, ihnames⟩ := ih (frameEditStep st hashIdx source_df acc n) hstep_names
      (fun q hq => hsub q (List.mem_cons_of_mem _ hq)) (List.nodup_cons.mp hnd).2
    have hnrest : n ∉ rest := (List.nodup_cons.mp hnd).1
    refine ⟨?_, by rw [List.foldl_cons]; exact ihnames⟩
    intro m
    rw [List.foldl_cons, ihget m]
    by_cases hmrest : m ∈ rest ∧ m ≠ "_row_hash" ∧ buildColEdits st hashIdx m ≠ []
    · rw [if_pos hmrest,
        if_pos ⟨List.mem_cons_of_mem _ hmrest.1, hmrest.2.1, hmrest.2.2⟩]
    · rw [if_neg hmrest]
      by_cases hmn : m = n
      · subst hmn
        unfold frameEditStep
        dsimp only
        by_cases hh : m = "_row_hash"
        · rw [if_pos hh, if_neg (by
            intro hcon
            exact hcon.2.1 hh)]
        · rw [if_neg hh]
          by_cases hce : buildColEdits st hashIdx m = []
          · rw [if_pos hce, if_neg (by
              intro hcon
              exact hcon.2.2 hce)]
          · rw [if_neg hce]
            rw [if_pos ⟨List.mem_cons_self _ _, hh, hce⟩]
            exact getCol_replaceColumn_self acc m _ hnacc
      · have hnotin : ¬ (m ∈ n :: rest ∧ m ≠ "_row_hash" ∧
            buildColEdits st hashIdx m ≠ []) := by
          intro hcon
          rcases List.mem_cons.mp hcon.1 with h1 | h1
          · exact hmn h1
          · exact hmrest ⟨h1, hcon.2.1, hcon.2.2⟩
        rw [if_neg hnotin]
        unfold frameEditStep
        dsimp only
        split
        · rfl
        · split
          · rfl
          · exact getCol_replaceColumn_ne acc n _ m hmn

/-- Functional characterization of `get_edited_dataframe` over a base with
an identity column: each non-internal column with resolved edits is patched
column-wise; everything else is the base's data. -/
theorem get_edited_dataframe_spec (st : PreviewTable) (use_current_view : Bool)
    (base : DataFrame) (hashes : List Value)
    (hbase : chooseExportSource st use_current_view = some base)
    (hwf : base.Wf)
    (hh : getCol base "_row_hash" = some hashes) :
    ∃ result, get_edited_dataframe st use_current_view = some result ∧
      colNames result = colNames base ∧
      ∀ m, getCol result m =
        (if m ∈ colNames base ∧ m ≠ "_row_hash" ∧
            buildColEdits st (buildHashIndex hashes) m ≠ [] then
          some (applyColEdits ((getCol base m).getD [])
            (buildColEdits st (buildHashIndex hashes) m))
        else getCol base m) := by
  unfold get_edited_dataframe
  rw [hbase]
  dsimp only
  by_cases hE : st.edits = []
  · rw [if_pos hE]
    refine ⟨base, rfl, rfl, fun m => ?_⟩
    have hce : buildColEdits st (buildHashIndex hashes) m = [] := by
      unfold buildColEdits
      rw [hE]
      rfl
    rw [if_neg (fun hcon => hcon.2.2 hce)]
  · rw [if_neg hE]
    rw [hh]
    dsimp only
    obtain ⟨hget, hnames⟩ := frameEdit_foldl_getCol st (buildHashIndex hashes) base
      (colNames base) base rfl (fun n hn => hn) hwf.1
    refine ⟨_, rfl, hnames, fun m => ?_⟩
    rw [hget m]

/-- C1: export reconciliation (`get_edited_dataframe`) over the chosen base
(the full original table when `use_current_view` is false, the current
filtered table when true) applies every overlay entry of the current sheet
on a non-internal column by resolving its row identity through the
identity→row-index map built from the base's `_row_hash` column; entries
whose identity does not occur in that base are silently skipped; the
operation returns a frame (never fails) and alters no cell other than the
resolved targets. -/
theorem c1_export_reconciliation (st : PreviewTable) (use_current_view : Bool)
    (base : DataFrame) (hashes : List Value)
    (hbase : chooseExportSource st use_current_view = some base)
    (hwf : base.Wf)
    (hh : getCol base "_row_hash" = some hashes)
    (hnd : (st.edits.map Prod.fst).Nodup) :
    ∃ result, get_edited_dataframe st use_current_view = some result ∧
      colNames result = colNames base ∧
      getCol result "_row_hash" = some hashes ∧
      (∀ cname cdata, getCol base cname = some cdata → cname ≠ "_row_hash" →
        ∃ cdata', getCol result cname = some cdata' ∧ cdata'.length = cdata.length ∧
          (∀ j, (∀ h v, lookupD st.edits (st.current_sheet_name, h, cname) = some v →
                lookupD (buildHashIndex hashes) (Value.vStr h) ≠ some j) →
              cdata'.get? j = cdata.get? j) ∧
          (∀ j h v, lookupD st.edits (st.current_sheet_name, h, cname) = some v →
              lookupD (buildHashIndex hashes) (Value.vStr h) = some j →
              cdata'.get? j = some (coerce_edit (cdata.getD j Value.vNone) v))) := by
  obtain ⟨result, hres, hnames, hget⟩ :=
    get_edited_dataframe_spec st use_current_view base hashes hbase hwf hh
  refine ⟨result, hres, hnames, ?_, ?_⟩
  · rw [hget "_row_hash", if_neg (fun hcon => hcon.2.1 rfl)]
    exact hh
  · intro cname cdata hcd hcne
    have hcmem : cname ∈ colNames base :=
      List.mem_map.mpr ⟨(cname, cdata), lookupD_mem hcd, rfl⟩
    have hCElookup : ∀ j h v,
        lookupD st.edits (st.current_sheet_name, h, cname) = some v →
        lookupD (buildHashIndex hashes) (Value.vStr h) = some j →
        lookupD (buildColEdits st (buildHashIndex hashes) cname) j = some v := by
      intro j h v hlk hresv
      obtain ⟨l1, l2, hsplit⟩ := List.append_of_mem (lookupD_mem hlk)
      have hno2 : ∀ p ∈ l2, p.1.1 = st.current_sheet_name → p.1.2.2 = cname →
          lookupD (buildHashIndex hashes) (Value.vStr p.1.2.1) ≠ some j := by
        intro p hp hps hpc hcontra
        have hkeyeq : Value.vStr p.1.2.1 = Value.vStr h :=
          buildHashIndex_inj hashes _ _ j hcontra hresv
        have hhash : p.1.2.1 = h := by
          injection hkeyeq
        have hpkey : p.1 = (st.current_sheet_name, h, cname) := by
          rcases p with ⟨⟨s, hs, c⟩, w⟩
          simp only at hps hpc hhash
          rw [hps, hpc, hhash]
        have hnd' := hnd
        rw [hsplit, List.map_append, List.map_cons] at hnd'
        rcases List.nodup_append.mp hnd' with ⟨-, hnd2, -⟩
        rcases List.nodup_cons.mp hnd2 with ⟨hnotin, -⟩
        exact hnotin (by
          rw [← hpkey]
          exact List.mem_map.mpr ⟨p, hp, rfl⟩)
      have hhit := buildColEdits_lookup_hit st.current_sheet_name
        (buildHashIndex hashes) cname l1 l2 h v j [] hresv hno2
      unfold buildColEdits
      rw [hsplit]
      exact hhit
    by_cases hce : buildColEdits st (buildHashIndex hashes) cname = []
    · refine ⟨cdata, ?_, rfl, fun j hj => rfl, ?_⟩
      · rw [hget cname, if_neg (fun hcon => hcon.2.2 hce)]
        exact hcd
      · intro j h v hlk hresv
        have := hCElookup j h v hlk hresv
        rw [hce] at this
        simp [lookupD] at this
    · refine ⟨applyColEdits cdata (buildColEdits st (buildHashIndex hashes) cname),
        ?_, applyColEdits_length _ _, ?_, ?_⟩
      · rw [hget cname, if_pos ⟨hcmem, hcne, hce⟩, hcd]
        rfl
      · intro j hj
        refine applyColEdits_get_of_not_mem cdata _ j ?_
        intro p hp hpj
        obtain ⟨h, v, hentry, hresolve⟩ :=
          buildColEdits_mem st (buildHashIndex hashes) cname p.1 p.2 hp
        have hlk : lookupD st.edits (st.current_sheet_name, h, cname) = some v :=
          lookupD_of_mem_nodup hentry hnd
        exact hj h v hlk (by rw [hresolve, hpj])
      · intro j h v hlk hresv
        have hjlen : j < cdata.length := by
          have hsound := buildHashIndex_sound hashes _ j hresv
          have hhashmem : ("_row_hash", hashes) ∈ base.cols := lookupD_mem hh
          have hcdmem : (cname, cdata) ∈ base.cols := lookupD_mem hcd
          have h1 := hwf.2 _ hhashmem
          have h2 := hwf.2 _ hcdmem
          simp only at h1 h2
          omega
        have hCE := hCElookup j h v hlk hresv
        obtain ⟨m1, m2, hsplitCE⟩ := List.append_of_mem (lookupD_mem hCE)
        have hndCE := buildColEdits_nodupKeys st (buildHashIndex hashes) cname
        rw [hsplitCE, List.map_append, List.map_cons] at hndCE
        rcases List.nodup_append.mp hndCE with ⟨-, hnd2, hdisj⟩
        rcases List.nodup_cons.mp hnd2 with ⟨hnotin2, -⟩
        have hm1 : ∀ p ∈ m1, p.1 ≠ j := by
          intro p hp hpj
          have hmem1 : p.1 ∈ m1.map Prod.fst := List.mem_map.mpr ⟨p, hp, rfl⟩
          apply hdisj hmem1
          rw [hpj]
          exact List.mem_cons_self _ _
        have hm2 : ∀ p ∈ m2, p.1 ≠ j := by
          intro p hp hpj
          exact hnotin2 (by rw [← hpj]; exact List.mem_map.mpr ⟨p, hp, rfl⟩)
        rw [hsplitCE]
        exact applyColEdits_get_of_mem cdata m1 m2 j v hjlen hm1 hm2

/-- C1 witness: the concrete edit state resolves and applies, producing a
frame. -/
theorem c1_export_reconciliation_witness :
    (get_edited_dataframe c1St false).isSome = true := by
  obtain ⟨result, hres, -⟩ :=
    c1_export_reconciliation c1St false c1Df c1Hashes rfl
      (by constructor
          · decide
          · intro c hc
            fin_cases hc <;> rfl)
      rfl (by decide)
  rw [hres]
  rfl

end ExcelDataFilter
